/-
Verification of the silius UoPool subsystem against its specification.

The development shallowly embeds the Rust sources:
  - crates/uopool/src/memory/mempool.rs     (MemoryMempool)
  - crates/uopool/src/database/mempool.rs   (DatabaseMempool, mdbx tables)
  - crates/uopool/src/database/reputation.rs (reputation decay tick)
  - crates/uopool/src/validate/sanity/entities.rs (entity reputation gate)
  - src/uopool/services/sanity_check.rs     (sender_or_init_code, verify_sender)

Modelling conventions:
  - Ethereum addresses are natural numbers; byte strings are lists of bytes.
  - The 32-byte keccak-based UserOperationHash is modelled as the injective
    image of its preimage (the operation together with entry point and chain
    id): keccak is treated as collision-free, and the signature field (which
    the hash excludes and no claim mentions) is not modelled.
  - HashMap / mdbx tables are modelled as association lists with canonical
    insert (prepend after erasing the key) so that lookups behave exactly as
    map lookups; HashSet is a list with guarded insertion; mdbx DUPSORT
    tables are lists of key-value pairs with guarded insertion (mdbx stores
    each (key, value) pair at most once).
  - u64 counters wrap modulo 2^64 as Rust release-mode arithmetic does;
    U256 fee subtraction, which panics on underflow in the uint crate, is
    modelled by an explicit panic outcome.
  - Provider and database infrastructure is assumed reliable: the only
    database error that the embedded operations themselves produce, NotFound,
    is modelled; transaction-level failures are outside the model.
-/
import Mathlib

namespace Silius

/-- Ethereum address, abstracted as a natural number. -/
abbrev Address := Nat

/-- A byte string (init_code, paymaster_and_data, on-chain code). -/
abbrev Bytes := List Nat

/-- ERC-4337 UserOperation, with the fields the verified claims mention.
The signature field is excluded from the user-operation hash by the code and
is not used by any embedded operation, so it is omitted. -/
structure UserOperation where
  sender : Address
  nonce : Nat
  init_code : Bytes
  call_data : Bytes
  call_gas_limit : Nat
  verification_gas_limit : Nat
  pre_verification_gas : Nat
  max_fee_per_gas : Nat
  max_priority_fee_per_gas : Nat
  paymaster_and_data : Bytes
deriving DecidableEq, Repr

/-- UserOperationHash: keccak256(keccak256(rlp(uo without signature)) ++ ep
++ chain_id).  Modelled as the injective image of its preimage, i.e. keccak
is treated as collision-free. -/
structure UserOperationHash where
  uo : UserOperation
  ep : Address
  chain_id : Nat
deriving DecidableEq, Repr

/-- UserOperation.hash from silius-primitives: hash of the operation under a
given entry point and chain id. -/
def UserOperation.hash (uo : UserOperation) (ep : Address) (chain_id : Nat) :
    UserOperationHash :=
  ⟨uo, ep, chain_id⟩

/-- Decode an address from the first 20 bytes of a byte string. -/
def addressOfBytes (bs : Bytes) : Address :=
  (bs.take 20).foldl (fun a b => a * 256 + b) 0

/-- Modelled from the spec: UserOperation::get_entities lives in the
silius-primitives crate, which is not among the given sources.  Spec section 3:
the factory is the first 20 bytes of init_code if non-empty. -/
def UserOperation.factory (uo : UserOperation) : Option Address :=
  if uo.init_code.isEmpty then none else some (addressOfBytes uo.init_code)

/-- Modelled from the spec: the paymaster is the first 20 bytes of
paymaster_and_data if non-empty (spec section 3). -/
def UserOperation.paymaster (uo : UserOperation) : Option Address :=
  if uo.paymaster_and_data.isEmpty then none
  else some (addressOfBytes uo.paymaster_and_data)

/-- Modelled from the spec: get_entities returns (sender, factory, paymaster),
the 1 to 3 entities named by a user operation (spec section 3). -/
def UserOperation.get_entities (uo : UserOperation) :
    Address × Option Address × Option Address :=
  (uo.sender, uo.factory, uo.paymaster)

/-- CodeHash: a contract address together with the keccak hash of its code,
captured at simulation time (silius-primitives simulation module). -/
structure CodeHash where
  address : Address
  hash : Nat
deriving DecidableEq, Repr

/- Association-list model of HashMap / unique-key mdbx tables. -/

/-- Map lookup: the value at the first occurrence of the key. -/
def mapGet {K V : Type} [DecidableEq K] : List (K × V) → K → Option V
  | [], _ => none
  | (k₀, v) :: t, k => if k = k₀ then some v else mapGet t k

/-- Map erase: remove every binding of the key. -/
def mapErase {K V : Type} [DecidableEq K] (m : List (K × V)) (k : K) :
    List (K × V) :=
  m.filter (fun p => decide (p.1 ≠ k))

/-- Map insert (HashMap::insert / mdbx put on a unique table): bind the key
to the value, replacing any previous binding. -/
def mapInsert {K V : Type} [DecidableEq K] (m : List (K × V)) (k : K) (v : V) :
    List (K × V) :=
  (k, v) :: mapErase m k

/-- Map lookup with a default value (entry(k).or_default()). -/
def mapGetD {K V : Type} [DecidableEq K] (m : List (K × V)) (k : K) (d : V) :
    V :=
  (mapGet m k).getD d

/- List model of HashSet. -/

/-- Set insert (HashSet::insert): add the element when absent. -/
def setInsert {A : Type} [DecidableEq A] (s : List A) (a : A) : List A :=
  if a ∈ s then s else a :: s

/-- Set remove (HashSet::remove): drop the element. -/
def setErase {A : Type} [DecidableEq A] (s : List A) (a : A) : List A :=
  s.filter (fun x => decide (x ≠ a))

/- List-of-pairs model of mdbx DUPSORT tables. -/

/-- DUPSORT put: mdbx stores each (key, value) pair at most once, so putting
an existing pair is a no-op. -/
def dupPut {K V : Type} [DecidableEq K] [DecidableEq V] (t : List (K × V))
    (k : K) (v : V) : List (K × V) :=
  if (k, v) ∈ t then t else (k, v) :: t

/-- DUPSORT delete with an explicit value: remove that (key, value) pair. -/
def dupDeleteOne {K V : Type} [DecidableEq K] [DecidableEq V]
    (t : List (K × V)) (k : K) (v : V) : List (K × V) :=
  t.filter (fun p => decide (p ≠ (k, v)))

/-- DUPSORT delete without a value: remove every pair with the key. -/
def dupDeleteAll {K V : Type} [DecidableEq K] (t : List (K × V)) (k : K) :
    List (K × V) :=
  t.filter (fun p => decide (p.1 ≠ k))

/-- DUPSORT cursor walk over one key (seek_by_key_subkey from the least
subkey followed by next_dup): all values stored under the key. -/
def dupGet {K V : Type} [DecidableEq K] (t : List (K × V)) (k : K) : List V :=
  t.filterMap (fun p => if p.1 = k then some p.2 else none)

/- The in-memory mempool backend (crates/uopool/src/memory/mempool.rs). -/

/-- Error type of the mempool operations: the memory backend raises the eyre
error "User operation not found" and the database backend DBError::NotFound;
both are modelled by this single constructor (transaction-level database
failures are outside the model). -/
inductive MempoolError where
  | notFound
deriving DecidableEq, Repr

/-- MemoryMempool: the four associative containers of the in-memory backend. -/
structure MemoryMempool where
  user_operations : List (UserOperationHash × UserOperation)
  user_operations_by_sender : List (Address × List UserOperationHash)
  code_hashes_by_user_operation : List (UserOperationHash × List CodeHash)
  user_operations_by_entity : List (Address × List UserOperationHash)
deriving Repr

/-- MemoryMempool::default(). -/
def MemoryMempool.empty : MemoryMempool := ⟨[], [], [], []⟩

/-- entry(addr).or_default().insert(hash) on a sender or entity index. -/
def idxInsert (idx : List (Address × List UserOperationHash)) (a : Address)
    (h : UserOperationHash) : List (Address × List UserOperationHash) :=
  mapInsert idx a (setInsert (mapGetD idx a []) h)

/-- Hash membership in a sender or entity index. -/
def idxMem (idx : List (Address × List UserOperationHash)) (a : Address)
    (h : UserOperationHash) : Prop :=
  h ∈ mapGetD idx a []

instance (idx : List (Address × List UserOperationHash)) (a : Address)
    (h : UserOperationHash) : Decidable (idxMem idx a h) := by
  unfold idxMem
  infer_instance

/-- The index-update step of MemoryMempool::remove: remove the hash from the
set at the address and drop the address key when its set becomes empty. -/
def idxRemove (idx : List (Address × List UserOperationHash)) (a : Address)
    (h : UserOperationHash) : List (Address × List UserOperationHash) :=
  match mapGet idx a with
  | none => idx
  | some s =>
    let s' := setErase s h
    if s'.isEmpty then mapErase idx a else mapInsert idx a s'

/-- The if-let-some guard around the factory / paymaster index insertion. -/
def optIdxInsert (idx : List (Address × List UserOperationHash))
    (oa : Option Address) (h : UserOperationHash) :
    List (Address × List UserOperationHash) :=
  match oa with
  | some a => idxInsert idx a h
  | none => idx

/-- The if-let-some guard around the factory / paymaster index removal. -/
def optIdxRemove (idx : List (Address × List UserOperationHash))
    (oa : Option Address) (h : UserOperationHash) :
    List (Address × List UserOperationHash) :=
  match oa with
  | some a => idxRemove idx a h
  | none => idx

/-- MemoryMempool::add. -/
def MemoryMempool.add (m : MemoryMempool) (uo : UserOperation) (ep : Address)
    (chain_id : Nat) : UserOperationHash × MemoryMempool :=
  let uo_hash := uo.hash ep chain_id
  let es := uo.get_entities
  (uo_hash,
    { user_operations := mapInsert m.user_operations uo_hash uo
      user_operations_by_sender :=
        idxInsert m.user_operations_by_sender es.1 uo_hash
      code_hashes_by_user_operation := m.code_hashes_by_user_operation
      user_operations_by_entity :=
        optIdxInsert (optIdxInsert m.user_operations_by_entity es.2.1 uo_hash)
          es.2.2 uo_hash })

/-- MemoryMempool::get. -/
def MemoryMempool.get (m : MemoryMempool) (uo_hash : UserOperationHash) :
    Option UserOperation :=
  mapGet m.user_operations uo_hash

/-- MemoryMempool::get_all_by_sender: the hashes indexed under the sender,
resolved through the primary store, skipping dangling hashes (filter_map). -/
def MemoryMempool.get_all_by_sender (m : MemoryMempool) (addr : Address) :
    List UserOperation :=
  (mapGetD m.user_operations_by_sender addr []).filterMap
    (fun uo_hash => mapGet m.user_operations uo_hash)

/-- MemoryMempool::get_number_by_sender. -/
def MemoryMempool.get_number_by_sender (m : MemoryMempool) (addr : Address) :
    Nat :=
  (mapGetD m.user_operations_by_sender addr []).length

/-- MemoryMempool::get_number_by_entity. -/
def MemoryMempool.get_number_by_entity (m : MemoryMempool) (addr : Address) :
    Nat :=
  (mapGetD m.user_operations_by_entity addr []).length

/-- MemoryMempool::set_code_hashes (insert replaces any previous list). -/
def MemoryMempool.set_code_hashes (m : MemoryMempool)
    (uo_hash : UserOperationHash) (hashes : List CodeHash) : MemoryMempool :=
  { m with code_hashes_by_user_operation :=
      mapInsert m.code_hashes_by_user_operation uo_hash hashes }

/-- MemoryMempool::get_code_hashes. -/
def MemoryMempool.get_code_hashes (m : MemoryMempool)
    (uo_hash : UserOperationHash) : List CodeHash :=
  mapGetD m.code_hashes_by_user_operation uo_hash []

/-- MemoryMempool::remove, returned as the final state together with the
Result: the error case returns before any container is touched, so the state
component is the input state. -/
def MemoryMempool.remove (m : MemoryMempool) (uo_hash : UserOperationHash) :
    MemoryMempool × Option MempoolError :=
  match mapGet m.user_operations uo_hash with
  | none => (m, some .notFound)
  | some uo =>
    let es := uo.get_entities
    ({ user_operations := mapErase m.user_operations uo_hash
       user_operations_by_sender :=
         idxRemove m.user_operations_by_sender es.1 uo_hash
       code_hashes_by_user_operation :=
         mapErase m.code_hashes_by_user_operation uo_hash
       user_operations_by_entity :=
         optIdxRemove
           (optIdxRemove m.user_operations_by_entity es.2.1 uo_hash)
           es.2.2 uo_hash }, none)

/-- The loop body of MemoryMempool::remove_by_entity: remove each listed
hash, stopping at the first error (the question-mark operator propagates it,
keeping the mutations already performed). -/
def removeSeq (m : MemoryMempool) :
    List UserOperationHash → MemoryMempool × Option MempoolError
  | [] => (m, none)
  | uo_hash :: rest =>
    match m.remove uo_hash with
    | (m', none) => removeSeq m' rest
    | (m', some e) => (m', some e)

/-- MemoryMempool::remove_by_entity: clone the entity index set and remove
every hash in it. -/
def MemoryMempool.remove_by_entity (m : MemoryMempool) (entity : Address) :
    MemoryMempool × Option MempoolError :=
  match mapGet m.user_operations_by_entity entity with
  | none => (m, none)
  | some uos => removeSeq m uos

/-- Comparison used by get_sorted on both backends, as a boolean total
preorder: a precedes b when a has the strictly higher tip, or tips are equal
and a has the smaller-or-equal nonce. -/
def uoLe (a b : UserOperation) : Bool :=
  if a.max_priority_fee_per_gas ≠ b.max_priority_fee_per_gas then
    decide (b.max_priority_fee_per_gas < a.max_priority_fee_per_gas)
  else decide (a.nonce ≤ b.nonce)

/-- MemoryMempool::get_all: the values of the primary store. -/
def MemoryMempool.get_all (m : MemoryMempool) : List UserOperation :=
  m.user_operations.map Prod.snd

/-- MemoryMempool::get_sorted: the values of the primary store sorted by
tip descending with nonce-ascending tie-break (a stable sort, as Rust
sort_by is). -/
def MemoryMempool.get_sorted (m : MemoryMempool) : List UserOperation :=
  (m.user_operations.map Prod.snd).mergeSort uoLe

/-- MemoryMempool::clear: all four containers are emptied. -/
def MemoryMempool.clear (_ : MemoryMempool) : MemoryMempool :=
  MemoryMempool.empty

/- The database mempool backend (crates/uopool/src/database/mempool.rs).
The four mdbx tables: UserOperations is a unique-key table; the sender,
entity and code-hash tables are DUPSORT tables of key-value pairs. -/

/-- DatabaseMempool: the four mdbx tables. -/
structure DatabaseMempool where
  userOperationsTbl : List (UserOperationHash × UserOperation)
  bySenderTbl : List (Address × UserOperationHash)
  byEntityTbl : List (Address × UserOperationHash)
  codeHashesTbl : List (UserOperationHash × CodeHash)
deriving Repr

/-- A freshly created database with empty tables. -/
def DatabaseMempool.empty : DatabaseMempool := ⟨[], [], [], []⟩

/-- The if-let-some guard around a DUPSORT put for factory / paymaster. -/
def optDupPut (t : List (Address × UserOperationHash)) (oa : Option Address)
    (h : UserOperationHash) : List (Address × UserOperationHash) :=
  match oa with
  | some a => dupPut t a h
  | none => t

/-- The if-let-some guard around a DUPSORT pair delete for factory /
paymaster. -/
def optDupDeleteOne (t : List (Address × UserOperationHash))
    (oa : Option Address) (h : UserOperationHash) :
    List (Address × UserOperationHash) :=
  match oa with
  | some a => dupDeleteOne t a h
  | none => t

/-- DatabaseMempool::add: one transaction putting the operation and its
sender / factory / paymaster index entries. -/
def DatabaseMempool.add (d : DatabaseMempool) (uo : UserOperation)
    (ep : Address) (chain_id : Nat) : UserOperationHash × DatabaseMempool :=
  let uo_hash := uo.hash ep chain_id
  let es := uo.get_entities
  (uo_hash,
    { userOperationsTbl := mapInsert d.userOperationsTbl uo_hash uo
      bySenderTbl := dupPut d.bySenderTbl es.1 uo_hash
      byEntityTbl :=
        optDupPut (optDupPut d.byEntityTbl es.2.1 uo_hash) es.2.2 uo_hash
      codeHashesTbl := d.codeHashesTbl })

/-- DatabaseMempool::get. -/
def DatabaseMempool.get (d : DatabaseMempool) (uo_hash : UserOperationHash) :
    Option UserOperation :=
  mapGet d.userOperationsTbl uo_hash

/-- DatabaseMempool::get_all_by_sender: walk the duplicate entries for the
sender and resolve each hash through the primary table, skipping dangling
hashes (two filter_map stages). -/
def DatabaseMempool.get_all_by_sender (d : DatabaseMempool) (addr : Address) :
    List UserOperation :=
  (dupGet d.bySenderTbl addr).filterMap
    (fun uo_hash => mapGet d.userOperationsTbl uo_hash)

/-- DatabaseMempool::get_number_by_sender. -/
def DatabaseMempool.get_number_by_sender (d : DatabaseMempool)
    (addr : Address) : Nat :=
  (dupGet d.bySenderTbl addr).length

/-- DatabaseMempool::get_number_by_entity. -/
def DatabaseMempool.get_number_by_entity (d : DatabaseMempool)
    (addr : Address) : Nat :=
  (dupGet d.byEntityTbl addr).length

/-- DatabaseMempool::set_code_hashes: delete any previous entries for the
hash, then put each code hash. -/
def DatabaseMempool.set_code_hashes (d : DatabaseMempool)
    (uo_hash : UserOperationHash) (hashes : List CodeHash) : DatabaseMempool :=
  let cleared := dupDeleteAll d.codeHashesTbl uo_hash
  { d with codeHashesTbl := hashes.foldl (fun t ch => dupPut t uo_hash ch) cleared }

/-- DatabaseMempool::get_code_hashes. -/
def DatabaseMempool.get_code_hashes (d : DatabaseMempool)
    (uo_hash : UserOperationHash) : List CodeHash :=
  dupGet d.codeHashesTbl uo_hash

/-- DatabaseMempool::remove: absent hash returns DBError::NotFound without
committing anything; otherwise one transaction deletes the operation, its
sender index pair, its code hashes, and its factory / paymaster pairs. -/
def DatabaseMempool.remove (d : DatabaseMempool)
    (uo_hash : UserOperationHash) : DatabaseMempool × Option MempoolError :=
  match mapGet d.userOperationsTbl uo_hash with
  | none => (d, some .notFound)
  | some uo =>
    let es := uo.get_entities
    ({ userOperationsTbl := mapErase d.userOperationsTbl uo_hash
       bySenderTbl := dupDeleteOne d.bySenderTbl es.1 uo_hash
       byEntityTbl :=
         optDupDeleteOne
           (optDupDeleteOne d.byEntityTbl es.2.1 uo_hash) es.2.2 uo_hash
       codeHashesTbl := dupDeleteAll d.codeHashesTbl uo_hash }, none)

/-- The loop of DatabaseMempool::remove_by_entity: remove each collected
hash, the question-mark operator propagating the first error. -/
def dbRemoveSeq (d : DatabaseMempool) :
    List UserOperationHash → DatabaseMempool × Option MempoolError
  | [] => (d, none)
  | uo_hash :: rest =>
    match d.remove uo_hash with
    | (d', none) => dbRemoveSeq d' rest
    | (d', some e) => (d', some e)

/-- DatabaseMempool::remove_by_entity: collect the hashes stored under the
entity, then remove each one. -/
def DatabaseMempool.remove_by_entity (d : DatabaseMempool) (entity : Address) :
    DatabaseMempool × Option MempoolError :=
  dbRemoveSeq d (dupGet d.byEntityTbl entity)

/-- DatabaseMempool::get_all: walk the primary table. -/
def DatabaseMempool.get_all (d : DatabaseMempool) : List UserOperation :=
  d.userOperationsTbl.map Prod.snd

/-- DatabaseMempool::get_sorted: walk the primary table and sort with the
same comparison as the memory backend. -/
def DatabaseMempool.get_sorted (d : DatabaseMempool) : List UserOperation :=
  (d.userOperationsTbl.map Prod.snd).mergeSort uoLe

/-- DatabaseMempool::clear: clears the UserOperations, UserOperationsBySender
and UserOperationsByEntity tables; the CodeHashes table is not cleared by the
source. -/
def DatabaseMempool.clear (d : DatabaseMempool) : DatabaseMempool :=
  { userOperationsTbl := []
    bySenderTbl := []
    byEntityTbl := []
    codeHashesTbl := d.codeHashesTbl }

/- The reputation decay tick (crates/uopool/src/database/reputation.rs). -/

/-- ReputationEntry from silius-primitives: an address with its observation
and inclusion counters (u64 in the source). -/
structure ReputationEntry where
  address : Address
  uo_seen : Nat
  uo_included : Nat
deriving DecidableEq, Repr

/-- Number of values of a u64. -/
def u64size : Nat := 2 ^ 64

/-- One counter decay step of ReputationEntryOp::update: the u64 product
with 23 (wrapping modulo 2^64, as Rust release-mode arithmetic does) divided
by 24. -/
def decay64 (x : Nat) : Nat :=
  x * 23 % u64size / 24

/-- ReputationEntryOp::update for the EntitiesReputation table: walk every
entry with a write cursor, decay both counters by 23/24, upsert the entry
when either decayed counter is positive, delete it otherwise. -/
def reputationTick (tbl : List (Address × ReputationEntry)) :
    List (Address × ReputationEntry) :=
  tbl.filterMap (fun p =>
    let s := decay64 p.2.uo_seen
    let i := decay64 p.2.uo_included
    if 0 < s ∨ 0 < i then
      some (p.1, { p.2 with uo_seen := s, uo_included := i })
    else none)

/- Sanity checks of src/uopool/services/sanity_check.rs. -/

/-- The BadUserOperationError cases reached by the embedded checks. -/
inductive BadUserOperationError where
  | senderOrInitCode (sender : Address) (init_code : Bytes)
  | senderVerification (sender : Address)
deriving DecidableEq, Repr

/-- UoPoolService::sender_or_init_code, with the provider read of the
on-chain code of the sender passed in as the byte string it returns. -/
def sender_or_init_code (code : Bytes) (uo : UserOperation) :
    Except BadUserOperationError Unit :=
  if (code.isEmpty && uo.init_code.isEmpty)
      || (!code.isEmpty && !uo.init_code.isEmpty) then
    .error (.senderOrInitCode uo.sender uo.init_code)
  else .ok ()

/-- Outcome of UoPoolService::verify_sender: success, the SenderVerification
error, or an abort of the task (the uint crate's U256 subtraction panics on
underflow, and indexing an empty vector panics). -/
inductive SenderOutcome where
  | ok
  | err
  | panics
deriving DecidableEq, Repr

/-- UoPoolService::verify_sender.  The entry-point deposit lookup and stake
verification of the sender are modelled by the boolean senderStakeOk (the
provider is assumed reliable).  The source computes the priority-fee
difference as a U256 subtraction before comparing the two fees, so a new
operation with the strictly lower tip aborts instead of failing. -/
def verify_sender (m : MemoryMempool) (senderStakeOk : Bool)
    (uo : UserOperation) : SenderOutcome :=
  if m.get_number_by_sender uo.sender = 0 then .ok
  else if senderStakeOk then .ok
  else
    match m.get_all_by_sender uo.sender with
    | [] => .panics
    | prev :: _ =>
      if uo.max_priority_fee_per_gas < prev.max_priority_fee_per_gas then
        .panics
      else
        let fee_per_gas_diff :=
          uo.max_priority_fee_per_gas - prev.max_priority_fee_per_gas
        if uo.sender = prev.sender ∧ uo.nonce = prev.nonce ∧
            prev.max_priority_fee_per_gas < uo.max_priority_fee_per_gas then
          if uo.max_fee_per_gas < prev.max_fee_per_gas then .panics
          else if uo.max_fee_per_gas - prev.max_fee_per_gas
              = fee_per_gas_diff then .ok
          else .err
        else .err

/- The entity reputation gate (crates/uopool/src/validate/sanity/entities.rs). -/

/-- Reputation status of an address. -/
inductive Status where
  | ok
  | throttled
  | banned
deriving DecidableEq, Repr

/-- The entity label attached to the reputation errors (the source carries
the string constants of silius-primitives; the labels carry no logic). -/
inductive EntityTag where
  | sender
  | factory
  | paymaster
deriving DecidableEq, Repr

/-- The SanityCheckError cases reached by the entities check. -/
inductive SanityCheckError where
  | entityBanned (entity : EntityTag) (address : Address)
  | throttledLimit (entity : EntityTag) (address : Address)
deriving DecidableEq, Repr

/-- Entities::check_banned (SREP-020). -/
def check_banned (entity : EntityTag) (addr : Address) (status : Status) :
    Except SanityCheckError Unit :=
  if status = .banned then .error (.entityBanned entity addr) else .ok ()

/-- Entities::check_throttled (SREP-030), parameterised by the constant
THROTTLED_ENTITY_MEMPOOL_COUNT (modelled from the spec: the constant lives in
the silius-primitives consts module, which is not among the given sources)
and by the two mempool counting reads. -/
def check_throttled (throttledCount : Nat)
    (numBySender numByEntity : Address → Nat) (entity : EntityTag)
    (addr : Address) (status : Status) : Except SanityCheckError Unit :=
  if status = .throttled ∧
      throttledCount ≤ numBySender addr + numByEntity addr then
    .error (.throttledLimit entity addr)
  else .ok ()

/-- The per-entity body of the entities sanity check: status lookup,
check_banned, then check_throttled. -/
def entityGate (statusOf : Address → Status) (throttledCount : Nat)
    (numBySender numByEntity : Address → Nat) (entity : EntityTag)
    (addr : Address) : Except SanityCheckError Unit :=
  (check_banned entity addr (statusOf addr)).bind fun _ =>
    check_throttled throttledCount numBySender numByEntity entity addr
      (statusOf addr)

/-- The if-let-some guard around the factory / paymaster gate. -/
def optGate (statusOf : Address → Status) (throttledCount : Nat)
    (numBySender numByEntity : Address → Nat) (entity : EntityTag)
    (oa : Option Address) : Except SanityCheckError Unit :=
  match oa with
  | some a => entityGate statusOf throttledCount numBySender numByEntity entity a
  | none => Except.ok ()

/-- SanityCheck::check_user_operation for Entities: the gate applied to the
sender, then the factory when present, then the paymaster when present, the
first error short-circuiting. -/
def entities_check (statusOf : Address → Status) (throttledCount : Nat)
    (numBySender numByEntity : Address → Nat) (uo : UserOperation) :
    Except SanityCheckError Unit :=
  let es := uo.get_entities
  (entityGate statusOf throttledCount numBySender numByEntity .sender
      es.1).bind fun _ =>
    (optGate statusOf throttledCount numBySender numByEntity .factory
        es.2.1).bind fun _ =>
      optGate statusOf throttledCount numBySender numByEntity .paymaster
        es.2.2

/- Structural invariant of the memory backend, tying the four containers
together.  The coher field records that the primary store only ever binds a
hash to its own preimage operation (keccak treated as collision-free). -/

/-- Invariant of MemoryMempool states reachable by the mempool operations. -/
structure MemInv (m : MemoryMempool) : Prop where
  coher : ∀ h uo, mapGet m.user_operations h = some uo → uo = h.uo
  fwdS : ∀ h : UserOperationHash, (mapGet m.user_operations h).isSome →
    idxMem m.user_operations_by_sender h.uo.sender h
  fwdF : ∀ h f, (mapGet m.user_operations h).isSome →
    h.uo.factory = some f → idxMem m.user_operations_by_entity f h
  fwdP : ∀ h p, (mapGet m.user_operations h).isSome →
    h.uo.paymaster = some p → idxMem m.user_operations_by_entity p h
  bwdS : ∀ a h, idxMem m.user_operations_by_sender a h →
    a = h.uo.sender ∧ (mapGet m.user_operations h).isSome
  bwdE : ∀ a h, idxMem m.user_operations_by_entity a h →
    (h.uo.factory = some a ∨ h.uo.paymaster = some a) ∧
      (mapGet m.user_operations h).isSome
  bwdC : ∀ h, (mapGet m.code_hashes_by_user_operation h).isSome →
    (mapGet m.user_operations h).isSome
  ndS : ∀ a, (mapGetD m.user_operations_by_sender a []).Nodup
  ndE : ∀ a, (mapGetD m.user_operations_by_entity a []).Nodup

/- Sequences of the four mempool operations of claim C1. -/

/-- One mempool operation: add, remove, remove_by_entity or clear. -/
inductive MempoolOp where
  | addUo (uo : UserOperation) (ep : Address) (chain_id : Nat)
  | removeHash (uo_hash : UserOperationHash)
  | removeEntity (entity : Address)
  | clearAll
deriving Repr

/-- Apply one operation to a memory mempool (the returned hash and the
Result are discarded; an erroring remove leaves the state it produced). -/
def MemoryMempool.applyOp (m : MemoryMempool) : MempoolOp → MemoryMempool
  | .addUo uo ep chain_id => (m.add uo ep chain_id).2
  | .removeHash uo_hash => (m.remove uo_hash).1
  | .removeEntity entity => (m.remove_by_entity entity).1
  | .clearAll => m.clear

/-- Apply a sequence of operations to a memory mempool. -/
def MemoryMempool.applyOps (m : MemoryMempool) (ops : List MempoolOp) :
    MemoryMempool :=
  ops.foldl MemoryMempool.applyOp m

/-- The index-consistency property of claim C1, stated on the memory
backend exactly as the spec states it: every stored operation is indexed
under its sender and its present entities, and every hash held by the
sender index, the entity index or the code-hash store refers to a stored
operation. -/
def memConsistent (m : MemoryMempool) : Prop :=
  (∀ h uo, mapGet m.user_operations h = some uo →
    idxMem m.user_operations_by_sender uo.sender h ∧
    (∀ f, uo.factory = some f → idxMem m.user_operations_by_entity f h) ∧
    (∀ p, uo.paymaster = some p → idxMem m.user_operations_by_entity p h)) ∧
  (∀ a h, idxMem m.user_operations_by_sender a h →
    (mapGet m.user_operations h).isSome) ∧
  (∀ a h, idxMem m.user_operations_by_entity a h →
    (mapGet m.user_operations h).isSome) ∧
  (∀ h, (mapGet m.code_hashes_by_user_operation h).isSome →
    (mapGet m.user_operations h).isSome)

/-- Invariant of DatabaseMempool states reachable by the mempool
operations (the state of the code-hash table is unconstrained except for
referring to stored operations). -/
structure DbInv (d : DatabaseMempool) : Prop where
  coher : ∀ h uo, mapGet d.userOperationsTbl h = some uo → uo = h.uo
  fwdS : ∀ h : UserOperationHash, (mapGet d.userOperationsTbl h).isSome →
    (h.uo.sender, h) ∈ d.bySenderTbl
  fwdF : ∀ h f, (mapGet d.userOperationsTbl h).isSome →
    h.uo.factory = some f → (f, h) ∈ d.byEntityTbl
  fwdP : ∀ h p, (mapGet d.userOperationsTbl h).isSome →
    h.uo.paymaster = some p → (p, h) ∈ d.byEntityTbl
  bwdS : ∀ a h, (a, h) ∈ d.bySenderTbl →
    a = h.uo.sender ∧ (mapGet d.userOperationsTbl h).isSome
  bwdE : ∀ a h, (a, h) ∈ d.byEntityTbl →
    (h.uo.factory = some a ∨ h.uo.paymaster = some a) ∧
      (mapGet d.userOperationsTbl h).isSome
  bwdC : ∀ h ch, (h, ch) ∈ d.codeHashesTbl →
    (mapGet d.userOperationsTbl h).isSome
  ndE : d.byEntityTbl.Nodup

/-- Apply one operation to a database mempool. -/
def DatabaseMempool.applyOp (d : DatabaseMempool) : MempoolOp → DatabaseMempool
  | .addUo uo ep chain_id => (d.add uo ep chain_id).2
  | .removeHash uo_hash => (d.remove uo_hash).1
  | .removeEntity entity => (d.remove_by_entity entity).1
  | .clearAll => d.clear

/-- Apply a sequence of operations to a database mempool. -/
def DatabaseMempool.applyOps (d : DatabaseMempool) (ops : List MempoolOp) :
    DatabaseMempool :=
  ops.foldl DatabaseMempool.applyOp d

/-- States reachable from the fresh database by the four mempool operations
also have an empty code-hash table: none of the four operations ever puts
into it, and DatabaseMempool::clear does not clear it. -/
def DbReach (d : DatabaseMempool) : Prop :=
  DbInv d ∧ d.codeHashesTbl = []

/-- The index-consistency property of claim C1 on the database backend. -/
def dbConsistent (d : DatabaseMempool) : Prop :=
  (∀ h uo, mapGet d.userOperationsTbl h = some uo →
    (uo.sender, h) ∈ d.bySenderTbl ∧
    (∀ f, uo.factory = some f → (f, h) ∈ d.byEntityTbl) ∧
    (∀ p, uo.paymaster = some p → (p, h) ∈ d.byEntityTbl)) ∧
  (∀ a h, (a, h) ∈ d.bySenderTbl → (mapGet d.userOperationsTbl h).isSome) ∧
  (∀ a h, (a, h) ∈ d.byEntityTbl → (mapGet d.userOperationsTbl h).isSome) ∧
  (∀ h ch, (h, ch) ∈ d.codeHashesTbl → (mapGet d.userOperationsTbl h).isSome)

/- The sort comparison of get_sorted is a total transitive preorder. -/

/-- The pairwise order claim C4 states on the output of get_sorted. -/
def sortedPair (a b : UserOperation) : Prop :=
  b.max_priority_fee_per_gas < a.max_priority_fee_per_gas ∨
    (a.max_priority_fee_per_gas = b.max_priority_fee_per_gas ∧
      a.nonce ≤ b.nonce)

/- Helper lemmas for the entity reputation gate. -/

/-- An address passes the per-entity gate: it is not banned and not throttled
over the mempool-entry limit. -/
def entityOk (statusOf : Address → Status) (tc : Nat)
    (nS nE : Address → Nat) (a : Address) : Prop :=
  statusOf a ≠ .banned ∧ ¬(statusOf a = .throttled ∧ tc ≤ nS a + nE a)

/-- An address is named by a user operation when it is its sender, factory or
paymaster. -/
def namedEntity (uo : UserOperation) (a : Address) : Prop :=
  a = uo.sender ∨ uo.factory = some a ∨ uo.paymaster = some a

/- Concrete operations and pool states used by witnesses and
counterexamples. -/

/-- A pooled operation: sender 1, nonce 0, max fee 200, priority fee 100. -/
def cOld : UserOperation :=
  ⟨1, 0, [], [], 21000, 100000, 40000, 200, 100, []⟩

/-- A replacement candidate with tip bumped by one unit and equal uplift. -/
def cNewA : UserOperation :=
  ⟨1, 0, [], [], 21000, 100000, 40000, 201, 101, []⟩

/-- A replacement candidate with the identical fees (no bump). -/
def cNewB : UserOperation :=
  ⟨1, 0, [], [], 21000, 100000, 40000, 200, 100, []⟩

/-- A replacement candidate with a strictly lower priority fee. -/
def cNewC : UserOperation :=
  ⟨1, 0, [], [], 21000, 100000, 40000, 200, 50, []⟩

/-- A memory pool holding exactly cOld. -/
def cPool : MemoryMempool :=
  (MemoryMempool.empty.add cOld 1 5).2

/-- The success condition of claim C2 at a replacement bump percentage pct:
same nonce, priority fee bumped by at least pct percent (exact rational
comparison), and equal uplift of max fee (exact integer arithmetic). -/
def c2ClaimHolds (pct : Nat) (oldU newU : UserOperation)
    (m : MemoryMempool) : Prop :=
  verify_sender m false newU = .ok ↔
    newU.nonce = oldU.nonce ∧
    oldU.max_priority_fee_per_gas * (100 + pct)
      ≤ newU.max_priority_fee_per_gas * 100 ∧
    (newU.max_fee_per_gas : Int) - (oldU.max_fee_per_gas : Int)
      = (newU.max_priority_fee_per_gas : Int)
        - (oldU.max_priority_fee_per_gas : Int)

/-- A database pool holding exactly cOld. -/
def cDb : DatabaseMempool := (DatabaseMempool.empty.add cOld 1 5).2

/-- An inconsistent memory state: the entity index lists a hash that is
absent from the primary store. -/
def cBadMem : MemoryMempool := ⟨[], [], [], [(7, [cOld.hash 1 5])]⟩

/-- An inconsistent database state: the entity table lists a hash that is
absent from the primary table. -/
def cBadDb : DatabaseMempool := ⟨[], [], [(7, cOld.hash 1 5)], []⟩

/-- An operation whose paymaster is address 7. -/
def cUoPm : UserOperation :=
  ⟨2, 0, [], [], 21000, 100000, 40000, 200, 100, [7]⟩

/-- A memory pool holding exactly cUoPm. -/
def cPoolPm : MemoryMempool := (MemoryMempool.empty.add cUoPm 1 5).2

/-- A database pool holding exactly cUoPm. -/
def cDbPm : DatabaseMempool := (DatabaseMempool.empty.add cUoPm 1 5).2

/-- The property claim C5 states: a banned named entity makes the check fail
with EntityBanned, a throttled named entity over the count limit makes it
fail with ThrottledLimit, and otherwise it succeeds. -/
def c5ClaimHolds (s : Address → Status) (tc : Nat) (nS nE : Address → Nat)
    (uo : UserOperation) : Prop :=
  ((∃ a, namedEntity uo a ∧ s a = .banned) →
    ∃ e a, entities_check s tc nS nE uo = .error (.entityBanned e a)) ∧
  ((∃ a, namedEntity uo a ∧ s a = .throttled ∧ tc ≤ nS a + nE a) →
    ∃ e a, entities_check s tc nS nE uo = .error (.throttledLimit e a)) ∧
  ((¬ ∃ a, namedEntity uo a ∧
      (s a = .banned ∨ (s a = .throttled ∧ tc ≤ nS a + nE a))) →
    entities_check s tc nS nE uo = .ok ())

/-- Status assignment of the C5 counterexample: address 1 is throttled,
address 3 is banned. -/
def c5Status : Address → Status :=
  fun a => if a = 1 then .throttled else if a = 3 then .banned else .ok

/-- Sender counts of the C5 counterexample: address 1 holds four pooled
operations. -/
def c5NumS : Address → Nat := fun a => if a = 1 then 4 else 0

/-- Entity counts of the C5 counterexample: all zero. -/
def c5NumE : Address → Nat := fun _ => 0

/-- The operation of the C5 counterexample: sender 1 (throttled over the
limit of four), paymaster 3 (banned). -/
def c5Uo : UserOperation :=
  ⟨1, 0, [], [], 21000, 100000, 40000, 200, 100, [3]⟩

/-- Status assignment of the C5 witness: address 9 is banned. -/
def c5StatusW : Address → Status := fun a => if a = 9 then .banned else .ok

/-- The operation of the C5 witness: sender 9. -/
def c5UoW : UserOperation :=
  ⟨9, 0, [], [], 21000, 100000, 40000, 200, 100, []⟩

theorem mapErase_cons_self {K V : Type} [DecidableEq K] (t : List (K × V))
    (k : K) (v : V) : mapErase ((k, v) :: t) k = mapErase t k := by
  simp [mapErase]

theorem mapErase_cons_ne {K V : Type} [DecidableEq K] (t : List (K × V))
    (k₀ k : K) (v : V) (h : k₀ ≠ k) :
    mapErase ((k₀, v) :: t) k = (k₀, v) :: mapErase t k := by
  simp [mapErase, h]

theorem mapGet_cons {K V : Type} [DecidableEq K] (t : List (K × V))
    (k₀ k : K) (v : V) :
    mapGet ((k₀, v) :: t) k = if k = k₀ then some v else mapGet t k := rfl

theorem mapGet_erase_self {K V : Type} [DecidableEq K] (m : List (K × V))
    (k : K) : mapGet (mapErase m k) k = none := by
  induction m with
  | nil => rfl
  | cons p t ih =>
    rcases p with ⟨k₀, v⟩
    by_cases hp : k₀ = k
    · rw [hp, mapErase_cons_self, ih]
    · rw [mapErase_cons_ne t k₀ k v hp, mapGet_cons,
        if_neg (fun hh => hp hh.symm), ih]

theorem mapGet_erase_ne {K V : Type} [DecidableEq K] (m : List (K × V))
    (k k' : K) (h : k' ≠ k) : mapGet (mapErase m k) k' = mapGet m k' := by
  induction m with
  | nil => rfl
  | cons p t ih =>
    rcases p with ⟨k₀, v⟩
    by_cases hp : k₀ = k
    · rw [hp, mapErase_cons_self, ih, mapGet_cons, if_neg h]
    · rw [mapErase_cons_ne t k₀ k v hp, mapGet_cons, mapGet_cons, ih]

theorem mapGet_insert_self {K V : Type} [DecidableEq K] (m : List (K × V))
    (k : K) (v : V) : mapGet (mapInsert m k v) k = some v := by
  simp [mapInsert, mapGet]

theorem mapGet_insert_ne {K V : Type} [DecidableEq K] (m : List (K × V))
    (k k' : K) (v : V) (h : k' ≠ k) :
    mapGet (mapInsert m k v) k' = mapGet m k' := by
  simp [mapInsert, mapGet, h, mapGet_erase_ne m k k' h]

theorem mem_setInsert {A : Type} [DecidableEq A] (s : List A) (a b : A) :
    b ∈ setInsert s a ↔ b = a ∨ b ∈ s := by
  by_cases h : a ∈ s
  · simp only [setInsert, if_pos h]
    constructor
    · exact Or.inr
    · rintro (rfl | hb)
      · exact h
      · exact hb
  · simp [setInsert, if_neg h]

theorem mem_setErase {A : Type} [DecidableEq A] (s : List A) (a b : A) :
    b ∈ setErase s a ↔ b ∈ s ∧ b ≠ a := by
  simp [setErase]

theorem nodup_setInsert {A : Type} [DecidableEq A] (s : List A) (a : A)
    (h : s.Nodup) : (setInsert s a).Nodup := by
  by_cases ha : a ∈ s
  · simpa [setInsert, ha] using h
  · rw [setInsert, if_neg ha]
    exact List.nodup_cons.mpr ⟨ha, h⟩

theorem nodup_setErase {A : Type} [DecidableEq A] (s : List A) (a : A)
    (h : s.Nodup) : (setErase s a).Nodup :=
  h.filter _

theorem mem_dupPut {K V : Type} [DecidableEq K] [DecidableEq V]
    (t : List (K × V)) (k : K) (v : V) (p : K × V) :
    p ∈ dupPut t k v ↔ p = (k, v) ∨ p ∈ t := by
  by_cases h : (k, v) ∈ t
  · simp only [dupPut, if_pos h]
    constructor
    · exact Or.inr
    · rintro (rfl | hp)
      · exact h
      · exact hp
  · simp [dupPut, if_neg h]

theorem mem_dupDeleteOne {K V : Type} [DecidableEq K] [DecidableEq V]
    (t : List (K × V)) (k : K) (v : V) (p : K × V) :
    p ∈ dupDeleteOne t k v ↔ p ∈ t ∧ p ≠ (k, v) := by
  simp [dupDeleteOne]

theorem mem_dupDeleteAll {K V : Type} [DecidableEq K] (t : List (K × V))
    (k : K) (p : K × V) : p ∈ dupDeleteAll t k ↔ p ∈ t ∧ p.1 ≠ k := by
  simp [dupDeleteAll]

theorem mem_dupGet {K V : Type} [DecidableEq K] (t : List (K × V)) (k : K)
    (v : V) : v ∈ dupGet t k ↔ (k, v) ∈ t := by
  simp only [dupGet, List.mem_filterMap]
  constructor
  · rintro ⟨p, hp, hv⟩
    by_cases h : p.1 = k
    · simp only [if_pos h, Option.some.injEq] at hv
      have : p = (k, v) := Prod.ext h hv
      exact this ▸ hp
    · simp [if_neg h] at hv
  · intro h
    exact ⟨(k, v), h, by simp⟩

theorem nodup_dupGet {K V : Type} [DecidableEq K] (t : List (K × V)) (k : K)
    (h : t.Nodup) : (dupGet t k).Nodup := by
  refine List.Nodup.filterMap ?_ h
  intro p q v hp hq
  by_cases h1 : p.1 = k
  · by_cases h2 : q.1 = k
    · simp only [if_pos h1, Option.mem_def, Option.some.injEq] at hp
      simp only [if_pos h2, Option.mem_def, Option.some.injEq] at hq
      exact Prod.ext (h1.trans h2.symm) (hp.trans hq.symm)
    · simp [if_neg h2] at hq
  · simp [if_neg h1] at hp

theorem nodup_dupPut {K V : Type} [DecidableEq K] [DecidableEq V]
    (t : List (K × V)) (k : K) (v : V) (h : t.Nodup) : (dupPut t k v).Nodup := by
  by_cases hm : (k, v) ∈ t
  · simpa [dupPut, hm] using h
  · rw [dupPut, if_neg hm]
    exact List.nodup_cons.mpr ⟨hm, h⟩

theorem nodup_dupDeleteOne {K V : Type} [DecidableEq K] [DecidableEq V]
    (t : List (K × V)) (k : K) (v : V) (h : t.Nodup) :
    (dupDeleteOne t k v).Nodup :=
  h.filter _

theorem nodup_dupDeleteAll {K V : Type} [DecidableEq K] (t : List (K × V))
    (k : K) (h : t.Nodup) : (dupDeleteAll t k).Nodup :=
  h.filter _

/- Membership lemmas for the sender / entity indexes of the memory backend. -/

theorem mapGetD_insert_self {K V : Type} [DecidableEq K] (m : List (K × V))
    (k : K) (v d : V) : mapGetD (mapInsert m k v) k d = v := by
  simp [mapGetD, mapGet_insert_self]

theorem mapGetD_insert_ne {K V : Type} [DecidableEq K] (m : List (K × V))
    (k k' : K) (v d : V) (h : k' ≠ k) :
    mapGetD (mapInsert m k v) k' d = mapGetD m k' d := by
  simp [mapGetD, mapGet_insert_ne m k k' v h]

theorem mapGetD_erase_self {K V : Type} [DecidableEq K] (m : List (K × V))
    (k : K) (d : V) : mapGetD (mapErase m k) k d = d := by
  simp [mapGetD, mapGet_erase_self]

theorem mapGetD_erase_ne {K V : Type} [DecidableEq K] (m : List (K × V))
    (k k' : K) (d : V) (h : k' ≠ k) :
    mapGetD (mapErase m k) k' d = mapGetD m k' d := by
  simp [mapGetD, mapGet_erase_ne m k k' h]

theorem idxMem_idxInsert (idx : List (Address × List UserOperationHash))
    (a : Address) (h : UserOperationHash) (b : Address)
    (h' : UserOperationHash) :
    idxMem (idxInsert idx a h) b h' ↔ (b = a ∧ h' = h) ∨ idxMem idx b h' := by
  by_cases hb : b = a
  · subst hb
    simp only [idxMem, idxInsert, mapGetD_insert_self, mem_setInsert]
    tauto
  · simp only [idxMem, idxInsert, mapGetD_insert_ne _ _ _ _ _ hb]
    tauto

theorem idxMem_idxRemove (idx : List (Address × List UserOperationHash))
    (a : Address) (h : UserOperationHash) (b : Address)
    (h' : UserOperationHash) :
    idxMem (idxRemove idx a h) b h' ↔
      idxMem idx b h' ∧ ¬(b = a ∧ h' = h) := by
  unfold idxRemove
  cases hget : mapGet idx a with
  | none =>
    by_cases hb : b = a
    · subst hb
      have hempty : mapGetD idx b [] = [] := by simp [mapGetD, hget]
      simp [idxMem, hempty]
    · simp only [idxMem]
      tauto
  | some s =>
    have hgetD : mapGetD idx a [] = s := by simp [mapGetD, hget]
    simp only
    by_cases hemp : (setErase s h).isEmpty
    · rw [if_pos hemp]
      have hnil : setErase s h = [] := List.isEmpty_iff.mp hemp
      by_cases hb : b = a
      · subst hb
        refine iff_of_false ?_ ?_
        · simp only [idxMem, mapGetD_erase_self]
          exact List.not_mem_nil h'
        · rintro ⟨hmem, hne⟩
          simp only [idxMem, hgetD] at hmem
          have hs : h' ∈ setErase s h :=
            (mem_setErase s h h').mpr ⟨hmem, fun he => hne ⟨rfl, he⟩⟩
          rw [hnil] at hs
          exact List.not_mem_nil h' hs
      · simp only [idxMem, mapGetD_erase_ne _ _ _ _ hb]
        tauto
    · rw [if_neg hemp]
      by_cases hb : b = a
      · subst hb
        simp only [idxMem, mapGetD_insert_self, mem_setErase, hgetD]
        tauto
      · simp only [idxMem, mapGetD_insert_ne _ _ _ _ _ hb]
        tauto

theorem idxMem_optIdxInsert (idx : List (Address × List UserOperationHash))
    (oa : Option Address) (h : UserOperationHash) (b : Address)
    (h' : UserOperationHash) :
    idxMem (optIdxInsert idx oa h) b h' ↔
      (oa = some b ∧ h' = h) ∨ idxMem idx b h' := by
  cases oa with
  | none => simp [optIdxInsert]
  | some a =>
    simp only [optIdxInsert, idxMem_idxInsert, Option.some.injEq]
    constructor
    · rintro (⟨rfl, rfl⟩ | hmem)
      · exact Or.inl ⟨rfl, rfl⟩
      · exact Or.inr hmem
    · rintro (⟨rfl, rfl⟩ | hmem)
      · exact Or.inl ⟨rfl, rfl⟩
      · exact Or.inr hmem

theorem idxMem_optIdxRemove (idx : List (Address × List UserOperationHash))
    (oa : Option Address) (h : UserOperationHash) (b : Address)
    (h' : UserOperationHash) :
    idxMem (optIdxRemove idx oa h) b h' ↔
      idxMem idx b h' ∧ ¬(oa = some b ∧ h' = h) := by
  cases oa with
  | none => simp [optIdxRemove]
  | some a =>
    simp only [optIdxRemove, idxMem_idxRemove, Option.some.injEq]
    constructor
    · rintro ⟨hmem, hne⟩
      exact ⟨hmem, fun hp => hne ⟨hp.1.symm, hp.2⟩⟩
    · rintro ⟨hmem, hne⟩
      exact ⟨hmem, fun hp => hne ⟨hp.1.symm, hp.2⟩⟩

theorem nodup_idxInsert (idx : List (Address × List UserOperationHash))
    (a : Address) (h : UserOperationHash)
    (hnd : ∀ b, (mapGetD idx b []).Nodup) :
    ∀ b, (mapGetD (idxInsert idx a h) b []).Nodup := by
  intro b
  by_cases hb : b = a
  · subst hb
    rw [idxInsert, mapGetD_insert_self]
    exact nodup_setInsert _ _ (hnd b)
  · rw [idxInsert, mapGetD_insert_ne _ _ _ _ _ hb]
    exact hnd b

theorem nodup_idxRemove (idx : List (Address × List UserOperationHash))
    (a : Address) (h : UserOperationHash)
    (hnd : ∀ b, (mapGetD idx b []).Nodup) :
    ∀ b, (mapGetD (idxRemove idx a h) b []).Nodup := by
  intro b
  unfold idxRemove
  cases hget : mapGet idx a with
  | none => exact hnd b
  | some s =>
    simp only
    by_cases hemp : (setErase s h).isEmpty
    · rw [if_pos hemp]
      by_cases hb : b = a
      · subst hb
        rw [mapGetD_erase_self]
        exact List.nodup_nil
      · rw [mapGetD_erase_ne _ _ _ _ hb]
        exact hnd b
    · rw [if_neg hemp]
      by_cases hb : b = a
      · subst hb
        rw [mapGetD_insert_self]
        refine nodup_setErase _ _ ?_
        have := hnd b
        rwa [mapGetD, hget] at this
      · rw [mapGetD_insert_ne _ _ _ _ _ hb]
        exact hnd b

theorem nodup_optIdxInsert (idx : List (Address × List UserOperationHash))
    (oa : Option Address) (h : UserOperationHash)
    (hnd : ∀ b, (mapGetD idx b []).Nodup) :
    ∀ b, (mapGetD (optIdxInsert idx oa h) b []).Nodup := by
  cases oa with
  | none => exact hnd
  | some a => exact nodup_idxInsert idx a h hnd

theorem nodup_optIdxRemove (idx : List (Address × List UserOperationHash))
    (oa : Option Address) (h : UserOperationHash)
    (hnd : ∀ b, (mapGetD idx b []).Nodup) :
    ∀ b, (mapGetD (optIdxRemove idx oa h) b []).Nodup := by
  cases oa with
  | none => exact hnd
  | some a => exact nodup_idxRemove idx a h hnd

theorem memInv_empty : MemInv MemoryMempool.empty := by
  refine ⟨?_, ?_, ?_, ?_, ?_, ?_, ?_, ?_, ?_⟩ <;>
    simp [MemoryMempool.empty, mapGet, mapGetD, idxMem]

theorem add_user_operations (m : MemoryMempool) (uo : UserOperation)
    (ep : Address) (c : Nat) :
    (m.add uo ep c).2.user_operations
      = mapInsert m.user_operations (uo.hash ep c) uo := rfl

theorem add_by_sender (m : MemoryMempool) (uo : UserOperation) (ep : Address)
    (c : Nat) :
    (m.add uo ep c).2.user_operations_by_sender
      = idxInsert m.user_operations_by_sender uo.sender (uo.hash ep c) := rfl

theorem add_code_hashes (m : MemoryMempool) (uo : UserOperation)
    (ep : Address) (c : Nat) :
    (m.add uo ep c).2.code_hashes_by_user_operation
      = m.code_hashes_by_user_operation := rfl

theorem add_by_entity (m : MemoryMempool) (uo : UserOperation) (ep : Address)
    (c : Nat) :
    (m.add uo ep c).2.user_operations_by_entity
      = optIdxInsert
          (optIdxInsert m.user_operations_by_entity uo.factory (uo.hash ep c))
          uo.paymaster (uo.hash ep c) := rfl

theorem hash_uo (uo : UserOperation) (ep : Address) (c : Nat) :
    (uo.hash ep c).uo = uo := rfl

theorem memInv_add (m : MemoryMempool) (uo : UserOperation) (ep : Address)
    (c : Nat) (hm : MemInv m) : MemInv (m.add uo ep c).2 := by
  refine ⟨?_, ?_, ?_, ?_, ?_, ?_, ?_, ?_, ?_⟩
  · intro h' uo' hg
    rw [add_user_operations] at hg
    by_cases hh : h' = uo.hash ep c
    · subst hh
      rw [mapGet_insert_self] at hg
      exact (Option.some.injEq _ _ ▸ hg).symm ▸ rfl
    · rw [mapGet_insert_ne _ _ _ _ hh] at hg
      exact hm.coher h' uo' hg
  · intro h' hsome
    rw [add_user_operations] at hsome
    rw [add_by_sender]
    by_cases hh : h' = uo.hash ep c
    · subst hh
      exact (idxMem_idxInsert _ _ _ _ _).mpr (Or.inl ⟨rfl, rfl⟩)
    · rw [mapGet_insert_ne _ _ _ _ hh] at hsome
      exact (idxMem_idxInsert _ _ _ _ _).mpr (Or.inr (hm.fwdS h' hsome))
  · intro h' f hsome hfac
    rw [add_user_operations] at hsome
    rw [add_by_entity]
    by_cases hh : h' = uo.hash ep c
    · subst hh
      refine (idxMem_optIdxInsert _ _ _ _ _).mpr (Or.inr ?_)
      exact (idxMem_optIdxInsert _ _ _ _ _).mpr (Or.inl ⟨hfac, rfl⟩)
    · rw [mapGet_insert_ne _ _ _ _ hh] at hsome
      refine (idxMem_optIdxInsert _ _ _ _ _).mpr (Or.inr ?_)
      exact (idxMem_optIdxInsert _ _ _ _ _).mpr
        (Or.inr (hm.fwdF h' f hsome hfac))
  · intro h' p hsome hpay
    rw [add_user_operations] at hsome
    rw [add_by_entity]
    by_cases hh : h' = uo.hash ep c
    · subst hh
      exact (idxMem_optIdxInsert _ _ _ _ _).mpr (Or.inl ⟨hpay, rfl⟩)
    · rw [mapGet_insert_ne _ _ _ _ hh] at hsome
      refine (idxMem_optIdxInsert _ _ _ _ _).mpr (Or.inr ?_)
      exact (idxMem_optIdxInsert _ _ _ _ _).mpr
        (Or.inr (hm.fwdP h' p hsome hpay))
  · intro a h' hmem
    rw [add_by_sender] at hmem
    rw [add_user_operations]
    rcases (idxMem_idxInsert _ _ _ _ _).mp hmem with ⟨ha, hh⟩ | hold
    · subst hh
      refine ⟨ha, ?_⟩
      rw [mapGet_insert_self]
      rfl
    · rcases hm.bwdS a h' hold with ⟨ha, hsome⟩
      refine ⟨ha, ?_⟩
      by_cases hh : h' = uo.hash ep c
      · subst hh
        rw [mapGet_insert_self]
        rfl
      · rwa [mapGet_insert_ne _ _ _ _ hh]
  · intro a h' hmem
    rw [add_by_entity] at hmem
    rw [add_user_operations]
    rcases (idxMem_optIdxInsert _ _ _ _ _).mp hmem with ⟨hpa, hh⟩ | hmem₁
    · subst hh
      refine ⟨Or.inr hpa, ?_⟩
      rw [mapGet_insert_self]
      rfl
    · rcases (idxMem_optIdxInsert _ _ _ _ _).mp hmem₁ with ⟨hfa, hh⟩ | hold
      · subst hh
        refine ⟨Or.inl hfa, ?_⟩
        rw [mapGet_insert_self]
        rfl
      · rcases hm.bwdE a h' hold with ⟨hfp, hsome⟩
        refine ⟨hfp, ?_⟩
        by_cases hh : h' = uo.hash ep c
        · subst hh
          rw [mapGet_insert_self]
          rfl
        · rwa [mapGet_insert_ne _ _ _ _ hh]
  · intro h' hsome
    rw [add_code_hashes] at hsome
    rw [add_user_operations]
    by_cases hh : h' = uo.hash ep c
    · subst hh
      rw [mapGet_insert_self]
      rfl
    · rw [mapGet_insert_ne _ _ _ _ hh]
      exact hm.bwdC h' hsome
  · rw [add_by_sender]
    exact nodup_idxInsert _ _ _ hm.ndS
  · rw [add_by_entity]
    exact nodup_optIdxInsert _ _ _ (nodup_optIdxInsert _ _ _ hm.ndE)

theorem remove_eq_of_get_none (m : MemoryMempool) (h₀ : UserOperationHash)
    (hget : mapGet m.user_operations h₀ = none) :
    m.remove h₀ = (m, some .notFound) := by
  unfold MemoryMempool.remove
  rw [hget]

theorem remove_eq_of_get_some (m : MemoryMempool) (h₀ : UserOperationHash)
    (uo : UserOperation) (hget : mapGet m.user_operations h₀ = some uo) :
    m.remove h₀ =
      ({ user_operations := mapErase m.user_operations h₀
         user_operations_by_sender :=
           idxRemove m.user_operations_by_sender uo.sender h₀
         code_hashes_by_user_operation :=
           mapErase m.code_hashes_by_user_operation h₀
         user_operations_by_entity :=
           optIdxRemove
             (optIdxRemove m.user_operations_by_entity uo.factory h₀)
             uo.paymaster h₀ }, none) := by
  unfold MemoryMempool.remove
  rw [hget]
  rfl

theorem memInv_remove (m : MemoryMempool) (h₀ : UserOperationHash)
    (hm : MemInv m) : MemInv (m.remove h₀).1 := by
  cases hget : mapGet m.user_operations h₀ with
  | none =>
    rw [remove_eq_of_get_none m h₀ hget]
    exact hm
  | some uo =>
    have huo : uo = h₀.uo := hm.coher h₀ uo hget
    rw [remove_eq_of_get_some m h₀ uo hget]
    refine ⟨?_, ?_, ?_, ?_, ?_, ?_, ?_, ?_, ?_⟩
    · intro h' uo' hg
      by_cases hh : h' = h₀
      · subst hh
        rw [mapGet_erase_self] at hg
        exact absurd hg (Option.noConfusion)
      · rw [mapGet_erase_ne _ _ _ hh] at hg
        exact hm.coher h' uo' hg
    · intro h' hsome
      by_cases hh : h' = h₀
      · subst hh
        rw [mapGet_erase_self] at hsome
        exact absurd hsome (by simp)
      · rw [mapGet_erase_ne _ _ _ hh] at hsome
        exact (idxMem_idxRemove _ _ _ _ _).mpr
          ⟨hm.fwdS h' hsome, fun hp => hh hp.2⟩
    · intro h' f hsome hfac
      by_cases hh : h' = h₀
      · subst hh
        rw [mapGet_erase_self] at hsome
        exact absurd hsome (by simp)
      · rw [mapGet_erase_ne _ _ _ hh] at hsome
        refine (idxMem_optIdxRemove _ _ _ _ _).mpr
          ⟨?_, fun hp => hh hp.2⟩
        exact (idxMem_optIdxRemove _ _ _ _ _).mpr
          ⟨hm.fwdF h' f hsome hfac, fun hp => hh hp.2⟩
    · intro h' p hsome hpay
      by_cases hh : h' = h₀
      · subst hh
        rw [mapGet_erase_self] at hsome
        exact absurd hsome (by simp)
      · rw [mapGet_erase_ne _ _ _ hh] at hsome
        refine (idxMem_optIdxRemove _ _ _ _ _).mpr
          ⟨?_, fun hp => hh hp.2⟩
        exact (idxMem_optIdxRemove _ _ _ _ _).mpr
          ⟨hm.fwdP h' p hsome hpay, fun hp => hh hp.2⟩
    · intro a h' hmem
      rcases (idxMem_idxRemove _ _ _ _ _).mp hmem with ⟨hold, hnot⟩
      rcases hm.bwdS a h' hold with ⟨ha, hsome⟩
      have hh : h' ≠ h₀ := by
        intro hh
        subst hh
        exact hnot ⟨by rw [ha, huo], rfl⟩
      refine ⟨ha, ?_⟩
      rwa [mapGet_erase_ne _ _ _ hh]
    · intro a h' hmem
      rcases (idxMem_optIdxRemove _ _ _ _ _).mp hmem with ⟨hmem₁, hnotP⟩
      rcases (idxMem_optIdxRemove _ _ _ _ _).mp hmem₁ with ⟨hold, hnotF⟩
      rcases hm.bwdE a h' hold with ⟨hfp, hsome⟩
      have hh : h' ≠ h₀ := by
        intro hh
        subst hh
        rcases hfp with hf | hp
        · exact hnotF ⟨by rw [huo]; exact hf, rfl⟩
        · exact hnotP ⟨by rw [huo]; exact hp, rfl⟩
      refine ⟨hfp, ?_⟩
      rwa [mapGet_erase_ne _ _ _ hh]
    · intro h' hsome
      by_cases hh : h' = h₀
      · subst hh
        rw [mapGet_erase_self] at hsome
        exact absurd hsome (by simp)
      · rw [mapGet_erase_ne _ _ _ hh] at hsome
        rw [mapGet_erase_ne _ _ _ hh]
        exact hm.bwdC h' hsome
    · exact nodup_idxRemove _ _ _ hm.ndS
    · exact nodup_optIdxRemove _ _ _ (nodup_optIdxRemove _ _ _ hm.ndE)

theorem memInv_removeSeq (hs : List UserOperationHash) :
    ∀ m : MemoryMempool, MemInv m → MemInv (removeSeq m hs).1 := by
  induction hs with
  | nil => intro m hm; exact hm
  | cons h₀ rest ih =>
    intro m hm
    unfold removeSeq
    cases hrm : m.remove h₀ with
    | mk m' e =>
      have hm' : MemInv m' := by
        have := memInv_remove m h₀ hm
        rwa [hrm] at this
      cases e with
      | none => exact ih m' hm'
      | some e₀ => exact hm'

theorem memInv_remove_by_entity (m : MemoryMempool) (a : Address)
    (hm : MemInv m) : MemInv (m.remove_by_entity a).1 := by
  unfold MemoryMempool.remove_by_entity
  cases mapGet m.user_operations_by_entity a with
  | none => exact hm
  | some uos => exact memInv_removeSeq uos m hm

theorem memInv_clear (m : MemoryMempool) : MemInv m.clear :=
  memInv_empty

theorem memInv_applyOp (m : MemoryMempool) (op : MempoolOp) (hm : MemInv m) :
    MemInv (m.applyOp op) := by
  cases op with
  | addUo uo ep chain_id => exact memInv_add m uo ep chain_id hm
  | removeHash uo_hash => exact memInv_remove m uo_hash hm
  | removeEntity entity => exact memInv_remove_by_entity m entity hm
  | clearAll => exact memInv_clear m

theorem memInv_applyOps (ops : List MempoolOp) :
    ∀ m : MemoryMempool, MemInv m → MemInv (m.applyOps ops) := by
  induction ops with
  | nil => intro m hm; exact hm
  | cons op rest ih =>
    intro m hm
    exact ih (m.applyOp op) (memInv_applyOp m op hm)

theorem memConsistent_of_memInv (m : MemoryMempool) (hm : MemInv m) :
    memConsistent m := by
  refine ⟨?_, ?_, ?_, ?_⟩
  · intro h uo hget
    have huo : uo = h.uo := hm.coher h uo hget
    have hsome : (mapGet m.user_operations h).isSome := by
      rw [hget]; rfl
    subst huo
    exact ⟨hm.fwdS h hsome, fun f hf => hm.fwdF h f hsome hf,
      fun p hp => hm.fwdP h p hsome hp⟩
  · intro a h hmem
    exact (hm.bwdS a h hmem).2
  · intro a h hmem
    exact (hm.bwdE a h hmem).2
  · exact hm.bwdC

/- Structural invariant of the database backend. -/

theorem mem_optDupPut (t : List (Address × UserOperationHash))
    (oa : Option Address) (h : UserOperationHash) (a' : Address)
    (h' : UserOperationHash) :
    (a', h') ∈ optDupPut t oa h ↔ (oa = some a' ∧ h' = h) ∨ (a', h') ∈ t := by
  cases oa with
  | none => simp [optDupPut]
  | some a =>
    simp only [optDupPut, mem_dupPut, Prod.mk.injEq, Option.some.injEq]
    constructor
    · rintro (⟨rfl, rfl⟩ | hp)
      · exact Or.inl ⟨rfl, rfl⟩
      · exact Or.inr hp
    · rintro (⟨rfl, rfl⟩ | hp)
      · exact Or.inl ⟨rfl, rfl⟩
      · exact Or.inr hp

theorem mem_optDupDeleteOne (t : List (Address × UserOperationHash))
    (oa : Option Address) (h : UserOperationHash) (a' : Address)
    (h' : UserOperationHash) :
    (a', h') ∈ optDupDeleteOne t oa h ↔
      (a', h') ∈ t ∧ ¬(oa = some a' ∧ h' = h) := by
  cases oa with
  | none => simp [optDupDeleteOne]
  | some a =>
    simp only [optDupDeleteOne, mem_dupDeleteOne, Prod.mk.injEq,
      Option.some.injEq, ne_eq]
    constructor
    · rintro ⟨hp, hne⟩
      exact ⟨hp, fun hq => hne ⟨hq.1.symm, hq.2⟩⟩
    · rintro ⟨hp, hne⟩
      exact ⟨hp, fun hq => hne ⟨hq.1.symm, hq.2⟩⟩

theorem nodup_optDupPut (t : List (Address × UserOperationHash))
    (oa : Option Address) (h : UserOperationHash) (hnd : t.Nodup) :
    (optDupPut t oa h).Nodup := by
  cases oa with
  | none => exact hnd
  | some a => exact nodup_dupPut t a h hnd

theorem nodup_optDupDeleteOne (t : List (Address × UserOperationHash))
    (oa : Option Address) (h : UserOperationHash) (hnd : t.Nodup) :
    (optDupDeleteOne t oa h).Nodup := by
  cases oa with
  | none => exact hnd
  | some a => exact nodup_dupDeleteOne t a h hnd

theorem dbInv_empty : DbInv DatabaseMempool.empty := by
  refine ⟨?_, ?_, ?_, ?_, ?_, ?_, ?_, ?_⟩ <;>
    simp [DatabaseMempool.empty, mapGet]

theorem dbAdd_userOperations (d : DatabaseMempool) (uo : UserOperation)
    (ep : Address) (c : Nat) :
    (d.add uo ep c).2.userOperationsTbl
      = mapInsert d.userOperationsTbl (uo.hash ep c) uo := rfl

theorem dbAdd_bySender (d : DatabaseMempool) (uo : UserOperation)
    (ep : Address) (c : Nat) :
    (d.add uo ep c).2.bySenderTbl
      = dupPut d.bySenderTbl uo.sender (uo.hash ep c) := rfl

theorem dbAdd_byEntity (d : DatabaseMempool) (uo : UserOperation)
    (ep : Address) (c : Nat) :
    (d.add uo ep c).2.byEntityTbl
      = optDupPut (optDupPut d.byEntityTbl uo.factory (uo.hash ep c))
          uo.paymaster (uo.hash ep c) := rfl

theorem dbAdd_codeHashes (d : DatabaseMempool) (uo : UserOperation)
    (ep : Address) (c : Nat) :
    (d.add uo ep c).2.codeHashesTbl = d.codeHashesTbl := rfl

theorem dbRemove_eq_of_get_none (d : DatabaseMempool)
    (h₀ : UserOperationHash) (hget : mapGet d.userOperationsTbl h₀ = none) :
    d.remove h₀ = (d, some .notFound) := by
  unfold DatabaseMempool.remove
  rw [hget]

theorem dbRemove_eq_of_get_some (d : DatabaseMempool)
    (h₀ : UserOperationHash) (uo : UserOperation)
    (hget : mapGet d.userOperationsTbl h₀ = some uo) :
    d.remove h₀ =
      ({ userOperationsTbl := mapErase d.userOperationsTbl h₀
         bySenderTbl := dupDeleteOne d.bySenderTbl uo.sender h₀
         byEntityTbl :=
           optDupDeleteOne (optDupDeleteOne d.byEntityTbl uo.factory h₀)
             uo.paymaster h₀
         codeHashesTbl := dupDeleteAll d.codeHashesTbl h₀ }, none) := by
  unfold DatabaseMempool.remove
  rw [hget]
  rfl

theorem dbInv_add (d : DatabaseMempool) (uo : UserOperation) (ep : Address)
    (c : Nat) (hd : DbInv d) : DbInv (d.add uo ep c).2 := by
  refine ⟨?_, ?_, ?_, ?_, ?_, ?_, ?_, ?_⟩
  · intro h' uo' hg
    rw [dbAdd_userOperations] at hg
    by_cases hh : h' = uo.hash ep c
    · subst hh
      rw [mapGet_insert_self] at hg
      exact (Option.some.injEq _ _ ▸ hg).symm ▸ rfl
    · rw [mapGet_insert_ne _ _ _ _ hh] at hg
      exact hd.coher h' uo' hg
  · intro h' hsome
    rw [dbAdd_userOperations] at hsome
    rw [dbAdd_bySender]
    by_cases hh : h' = uo.hash ep c
    · subst hh
      exact (mem_dupPut _ _ _ _).mpr (Or.inl rfl)
    · rw [mapGet_insert_ne _ _ _ _ hh] at hsome
      exact (mem_dupPut _ _ _ _).mpr (Or.inr (hd.fwdS h' hsome))
  · intro h' f hsome hfac
    rw [dbAdd_userOperations] at hsome
    rw [dbAdd_byEntity]
    by_cases hh : h' = uo.hash ep c
    · subst hh
      refine (mem_optDupPut _ _ _ _ _).mpr (Or.inr ?_)
      exact (mem_optDupPut _ _ _ _ _).mpr (Or.inl ⟨hfac, rfl⟩)
    · rw [mapGet_insert_ne _ _ _ _ hh] at hsome
      refine (mem_optDupPut _ _ _ _ _).mpr (Or.inr ?_)
      exact (mem_optDupPut _ _ _ _ _).mpr (Or.inr (hd.fwdF h' f hsome hfac))
  · intro h' p hsome hpay
    rw [dbAdd_userOperations] at hsome
    rw [dbAdd_byEntity]
    by_cases hh : h' = uo.hash ep c
    · subst hh
      exact (mem_optDupPut _ _ _ _ _).mpr (Or.inl ⟨hpay, rfl⟩)
    · rw [mapGet_insert_ne _ _ _ _ hh] at hsome
      refine (mem_optDupPut _ _ _ _ _).mpr (Or.inr ?_)
      exact (mem_optDupPut _ _ _ _ _).mpr (Or.inr (hd.fwdP h' p hsome hpay))
  · intro a h' hmem
    rw [dbAdd_bySender] at hmem
    rw [dbAdd_userOperations]
    rcases (mem_dupPut _ _ _ _).mp hmem with heq | hold
    · have ha : a = uo.sender := congrArg Prod.fst heq
      have hh : h' = uo.hash ep c := congrArg Prod.snd heq
      subst hh
      refine ⟨ha, ?_⟩
      rw [mapGet_insert_self]
      rfl
    · rcases hd.bwdS a h' hold with ⟨ha, hsome⟩
      refine ⟨ha, ?_⟩
      by_cases hh : h' = uo.hash ep c
      · subst hh
        rw [mapGet_insert_self]
        rfl
      · rwa [mapGet_insert_ne _ _ _ _ hh]
  · intro a h' hmem
    rw [dbAdd_byEntity] at hmem
    rw [dbAdd_userOperations]
    rcases (mem_optDupPut _ _ _ _ _).mp hmem with ⟨hpa, hh⟩ | hmem₁
    · subst hh
      refine ⟨Or.inr hpa, ?_⟩
      rw [mapGet_insert_self]
      rfl
    · rcases (mem_optDupPut _ _ _ _ _).mp hmem₁ with ⟨hfa, hh⟩ | hold
      · subst hh
        refine ⟨Or.inl hfa, ?_⟩
        rw [mapGet_insert_self]
        rfl
      · rcases hd.bwdE a h' hold with ⟨hfp, hsome⟩
        refine ⟨hfp, ?_⟩
        by_cases hh : h' = uo.hash ep c
        · subst hh
          rw [mapGet_insert_self]
          rfl
        · rwa [mapGet_insert_ne _ _ _ _ hh]
  · intro h' ch hmem
    rw [dbAdd_codeHashes] at hmem
    rw [dbAdd_userOperations]
    by_cases hh : h' = uo.hash ep c
    · subst hh
      rw [mapGet_insert_self]
      rfl
    · rw [mapGet_insert_ne _ _ _ _ hh]
      exact hd.bwdC h' ch hmem
  · rw [dbAdd_byEntity]
    exact nodup_optDupPut _ _ _ (nodup_optDupPut _ _ _ hd.ndE)

theorem dbInv_remove (d : DatabaseMempool) (h₀ : UserOperationHash)
    (hd : DbInv d) : DbInv (d.remove h₀).1 := by
  cases hget : mapGet d.userOperationsTbl h₀ with
  | none =>
    rw [dbRemove_eq_of_get_none d h₀ hget]
    exact hd
  | some uo =>
    have huo : uo = h₀.uo := hd.coher h₀ uo hget
    rw [dbRemove_eq_of_get_some d h₀ uo hget]
    refine ⟨?_, ?_, ?_, ?_, ?_, ?_, ?_, ?_⟩
    · intro h' uo' hg
      by_cases hh : h' = h₀
      · subst hh
        rw [mapGet_erase_self] at hg
        exact absurd hg (Option.noConfusion)
      · rw [mapGet_erase_ne _ _ _ hh] at hg
        exact hd.coher h' uo' hg
    · intro h' hsome
      by_cases hh : h' = h₀
      · subst hh
        rw [mapGet_erase_self] at hsome
        exact absurd hsome (by simp)
      · rw [mapGet_erase_ne _ _ _ hh] at hsome
        exact (mem_dupDeleteOne _ _ _ _).mpr
          ⟨hd.fwdS h' hsome, fun hp => hh (congrArg Prod.snd hp)⟩
    · intro h' f hsome hfac
      by_cases hh : h' = h₀
      · subst hh
        rw [mapGet_erase_self] at hsome
        exact absurd hsome (by simp)
      · rw [mapGet_erase_ne _ _ _ hh] at hsome
        refine (mem_optDupDeleteOne _ _ _ _ _).mpr ⟨?_, fun hp => hh hp.2⟩
        exact (mem_optDupDeleteOne _ _ _ _ _).mpr
          ⟨hd.fwdF h' f hsome hfac, fun hp => hh hp.2⟩
    · intro h' p hsome hpay
      by_cases hh : h' = h₀
      · subst hh
        rw [mapGet_erase_self] at hsome
        exact absurd hsome (by simp)
      · rw [mapGet_erase_ne _ _ _ hh] at hsome
        refine (mem_optDupDeleteOne _ _ _ _ _).mpr ⟨?_, fun hp => hh hp.2⟩
        exact (mem_optDupDeleteOne _ _ _ _ _).mpr
          ⟨hd.fwdP h' p hsome hpay, fun hp => hh hp.2⟩
    · intro a h' hmem
      rcases (mem_dupDeleteOne _ _ _ _).mp hmem with ⟨hold, hnot⟩
      rcases hd.bwdS a h' hold with ⟨ha, hsome⟩
      have hh : h' ≠ h₀ := by
        intro hh
        subst hh
        exact hnot (by rw [ha, huo])
      refine ⟨ha, ?_⟩
      rwa [mapGet_erase_ne _ _ _ hh]
    · intro a h' hmem
      rcases (mem_optDupDeleteOne _ _ _ _ _).mp hmem with ⟨hmem₁, hnotP⟩
      rcases (mem_optDupDeleteOne _ _ _ _ _).mp hmem₁ with ⟨hold, hnotF⟩
      rcases hd.bwdE a h' hold with ⟨hfp, hsome⟩
      have hh : h' ≠ h₀ := by
        intro hh
        subst hh
        rcases hfp with hf | hp
        · exact hnotF ⟨by rw [huo]; exact hf, rfl⟩
        · exact hnotP ⟨by rw [huo]; exact hp, rfl⟩
      refine ⟨hfp, ?_⟩
      rwa [mapGet_erase_ne _ _ _ hh]
    · intro h' ch hmem
      rcases (mem_dupDeleteAll _ _ _).mp hmem with ⟨hold, hne⟩
      have hsome := hd.bwdC h' ch hold
      rwa [mapGet_erase_ne _ _ _ hne]
    · exact nodup_optDupDeleteOne _ _ _ (nodup_optDupDeleteOne _ _ _ hd.ndE)

theorem dbInv_removeSeq (hs : List UserOperationHash) :
    ∀ d : DatabaseMempool, DbInv d → DbInv (dbRemoveSeq d hs).1 := by
  induction hs with
  | nil => intro d hd; exact hd
  | cons h₀ rest ih =>
    intro d hd
    unfold dbRemoveSeq
    cases hrm : d.remove h₀ with
    | mk d' e =>
      have hd' : DbInv d' := by
        have := dbInv_remove d h₀ hd
        rwa [hrm] at this
      cases e with
      | none => exact ih d' hd'
      | some e₀ => exact hd'

theorem dbInv_remove_by_entity (d : DatabaseMempool) (a : Address)
    (hd : DbInv d) : DbInv (d.remove_by_entity a).1 :=
  dbInv_removeSeq _ d hd

theorem dbRemove_codeHashes_of_empty (d : DatabaseMempool)
    (h₀ : UserOperationHash) (hc : d.codeHashesTbl = []) :
    (d.remove h₀).1.codeHashesTbl = [] := by
  cases hget : mapGet d.userOperationsTbl h₀ with
  | none => rw [dbRemove_eq_of_get_none d h₀ hget]; exact hc
  | some uo =>
    rw [dbRemove_eq_of_get_some d h₀ uo hget]
    simp [hc, dupDeleteAll]

theorem dbRemoveSeq_codeHashes_of_empty (hs : List UserOperationHash) :
    ∀ d : DatabaseMempool, d.codeHashesTbl = [] →
      (dbRemoveSeq d hs).1.codeHashesTbl = [] := by
  induction hs with
  | nil => intro d hc; exact hc
  | cons h₀ rest ih =>
    intro d hc
    unfold dbRemoveSeq
    cases hrm : d.remove h₀ with
    | mk d' e =>
      have hc' : d'.codeHashesTbl = [] := by
        have := dbRemove_codeHashes_of_empty d h₀ hc
        rwa [hrm] at this
      cases e with
      | none => exact ih d' hc'
      | some e₀ => exact hc'

theorem dbInv_clear_of_codeHashes_empty (d : DatabaseMempool)
    (hc : d.codeHashesTbl = []) : DbInv d.clear := by
  refine ⟨?_, ?_, ?_, ?_, ?_, ?_, ?_, ?_⟩
  · intro h' uo hg
    exact absurd hg (by simp [DatabaseMempool.clear, mapGet])
  · intro h' hsome
    exact absurd hsome (by simp [DatabaseMempool.clear, mapGet])
  · intro h' f hsome _
    exact absurd hsome (by simp [DatabaseMempool.clear, mapGet])
  · intro h' p hsome _
    exact absurd hsome (by simp [DatabaseMempool.clear, mapGet])
  · intro a h' hmem
    exact absurd hmem (by simp [DatabaseMempool.clear])
  · intro a h' hmem
    exact absurd hmem (by simp [DatabaseMempool.clear])
  · intro h' ch hmem
    have : (h', ch) ∈ d.codeHashesTbl := hmem
    rw [hc] at this
    exact absurd this (List.not_mem_nil _)
  · show (List.Nodup [])
    exact List.nodup_nil

theorem dbClear_codeHashes (d : DatabaseMempool) :
    d.clear.codeHashesTbl = d.codeHashesTbl := rfl

theorem dbReach_applyOp (d : DatabaseMempool) (op : MempoolOp)
    (hd : DbReach d) : DbReach (d.applyOp op) := by
  rcases hd with ⟨hinv, hc⟩
  cases op with
  | addUo uo ep chain_id =>
    refine ⟨dbInv_add d uo ep chain_id hinv, ?_⟩
    show (d.add uo ep chain_id).2.codeHashesTbl = []
    rw [dbAdd_codeHashes]
    exact hc
  | removeHash uo_hash =>
    exact ⟨dbInv_remove d uo_hash hinv,
      dbRemove_codeHashes_of_empty d uo_hash hc⟩
  | removeEntity entity =>
    exact ⟨dbInv_remove_by_entity d entity hinv,
      dbRemoveSeq_codeHashes_of_empty _ d hc⟩
  | clearAll =>
    refine ⟨dbInv_clear_of_codeHashes_empty d hc, ?_⟩
    show d.clear.codeHashesTbl = []
    rw [dbClear_codeHashes]
    exact hc

theorem dbReach_applyOps (ops : List MempoolOp) :
    ∀ d : DatabaseMempool, DbReach d → DbReach (d.applyOps ops) := by
  induction ops with
  | nil => intro d hd; exact hd
  | cons op rest ih =>
    intro d hd
    exact ih (d.applyOp op) (dbReach_applyOp d op hd)

theorem dbConsistent_of_dbInv (d : DatabaseMempool) (hd : DbInv d) :
    dbConsistent d := by
  refine ⟨?_, ?_, ?_, ?_⟩
  · intro h uo hget
    have huo : uo = h.uo := hd.coher h uo hget
    have hsome : (mapGet d.userOperationsTbl h).isSome := by
      rw [hget]; rfl
    subst huo
    exact ⟨hd.fwdS h hsome, fun f hf => hd.fwdF h f hsome hf,
      fun p hp => hd.fwdP h p hsome hp⟩
  · intro a h hmem
    exact (hd.bwdS a h hmem).2
  · intro a h hmem
    exact (hd.bwdE a h hmem).2
  · exact hd.bwdC

/- Success of remove_by_entity on invariant-satisfying states. -/

theorem removeSeq_ok (hs : List UserOperationHash) :
    ∀ m : MemoryMempool, MemInv m → hs.Nodup →
      (∀ h ∈ hs, (mapGet m.user_operations h).isSome) →
      (removeSeq m hs).2 = none ∧ MemInv (removeSeq m hs).1 ∧
        ∀ b h', idxMem (removeSeq m hs).1.user_operations_by_entity b h' →
          idxMem m.user_operations_by_entity b h' ∧ h' ∉ hs := by
  induction hs with
  | nil =>
    intro m hm _ _
    exact ⟨rfl, hm, fun b h' hmem => ⟨hmem, List.not_mem_nil h'⟩⟩
  | cons h₀ rest ih =>
    intro m hm hnd hsome
    have hs₀ : (mapGet m.user_operations h₀).isSome :=
      hsome h₀ (List.mem_cons_self h₀ rest)
    rcases Option.isSome_iff_exists.mp hs₀ with ⟨uo, hget⟩
    have huo : uo = h₀.uo := hm.coher h₀ uo hget
    have hrm := remove_eq_of_get_some m h₀ uo hget
    have hm₁ : MemInv (m.remove h₀).1 := memInv_remove m h₀ hm
    rw [hrm] at hm₁
    have hrest : ∀ h ∈ rest, (mapGet (m.remove h₀).1.user_operations h).isSome := by
      intro h hh
      rw [hrm]
      have hne : h ≠ h₀ := fun he => (List.nodup_cons.mp hnd).1 (he ▸ hh)
      rw [mapGet_erase_ne _ _ _ hne]
      exact hsome h (List.mem_cons_of_mem h₀ hh)
    rw [hrm] at hrest
    have hstep : ∀ b h',
        idxMem (m.remove h₀).1.user_operations_by_entity b h' →
          idxMem m.user_operations_by_entity b h' ∧ h' ≠ h₀ := by
      intro b h' hmem
      rw [hrm] at hmem
      rcases (idxMem_optIdxRemove _ _ _ _ _).mp hmem with ⟨hmem₁, hnotP⟩
      rcases (idxMem_optIdxRemove _ _ _ _ _).mp hmem₁ with ⟨hold, hnotF⟩
      refine ⟨hold, ?_⟩
      intro he
      subst he
      rcases (hm.bwdE b h' hold).1 with hf | hp
      · exact hnotF ⟨by rw [huo]; exact hf, rfl⟩
      · exact hnotP ⟨by rw [huo]; exact hp, rfl⟩
    have hseq : removeSeq m (h₀ :: rest) = removeSeq (m.remove h₀).1 rest := by
      show (match m.remove h₀ with
        | (m', none) => removeSeq m' rest
        | (m', some e) => (m', some e)) = removeSeq (m.remove h₀).1 rest
      rw [hrm]
    rcases ih (m.remove h₀).1 (by rw [hrm]; exact hm₁)
        (List.nodup_cons.mp hnd).2 (by rw [hrm]; exact hrest) with
      ⟨hok, hinv, hsub⟩
    refine ⟨by rw [hseq]; exact hok, by rw [hseq]; exact hinv, ?_⟩
    intro b h' hmem
    rw [hseq] at hmem
    rcases hsub b h' hmem with ⟨hmem₁, hnr⟩
    rcases hstep b h' hmem₁ with ⟨hmemm, hne⟩
    exact ⟨hmemm, by
      intro hin
      rcases List.mem_cons.mp hin with he | ht
      · exact hne he
      · exact hnr ht⟩

theorem remove_by_entity_ok (m : MemoryMempool) (a : Address)
    (hm : MemInv m) :
    (m.remove_by_entity a).2 = none ∧ MemInv (m.remove_by_entity a).1 ∧
      ∀ h', ¬ idxMem (m.remove_by_entity a).1.user_operations_by_entity a h' := by
  unfold MemoryMempool.remove_by_entity
  cases hget : mapGet m.user_operations_by_entity a with
  | none =>
    refine ⟨rfl, hm, ?_⟩
    intro h' hmem
    simp only [idxMem, mapGetD, hget, Option.getD_none] at hmem
    exact List.not_mem_nil h' hmem
  | some s =>
    have hsD : mapGetD m.user_operations_by_entity a [] = s := by
      simp [mapGetD, hget]
    have hnd : s.Nodup := by
      have := hm.ndE a
      rwa [hsD] at this
    have hsome : ∀ h ∈ s, (mapGet m.user_operations h).isSome := by
      intro h hh
      refine (hm.bwdE a h ?_).2
      simp only [idxMem, hsD]
      exact hh
    rcases removeSeq_ok s m hm hnd hsome with ⟨hok, hinv, hsub⟩
    refine ⟨hok, hinv, ?_⟩
    intro h' hmem
    rcases hsub a h' hmem with ⟨hmemm, hns⟩
    apply hns
    simpa only [idxMem, hsD] using hmemm

theorem dbRemoveSeq_ok (hs : List UserOperationHash) :
    ∀ d : DatabaseMempool, DbInv d → hs.Nodup →
      (∀ h ∈ hs, (mapGet d.userOperationsTbl h).isSome) →
      (dbRemoveSeq d hs).2 = none ∧ DbInv (dbRemoveSeq d hs).1 ∧
        ∀ b h', (b, h') ∈ (dbRemoveSeq d hs).1.byEntityTbl →
          (b, h') ∈ d.byEntityTbl ∧ h' ∉ hs := by
  induction hs with
  | nil =>
    intro d hd _ _
    exact ⟨rfl, hd, fun b h' hmem => ⟨hmem, List.not_mem_nil h'⟩⟩
  | cons h₀ rest ih =>
    intro d hd hnd hsome
    have hs₀ : (mapGet d.userOperationsTbl h₀).isSome :=
      hsome h₀ (List.mem_cons_self h₀ rest)
    rcases Option.isSome_iff_exists.mp hs₀ with ⟨uo, hget⟩
    have huo : uo = h₀.uo := hd.coher h₀ uo hget
    have hrm := dbRemove_eq_of_get_some d h₀ uo hget
    have hd₁ : DbInv (d.remove h₀).1 := dbInv_remove d h₀ hd
    have hrest : ∀ h ∈ rest,
        (mapGet (d.remove h₀).1.userOperationsTbl h).isSome := by
      intro h hh
      rw [hrm]
      have hne : h ≠ h₀ := fun he => (List.nodup_cons.mp hnd).1 (he ▸ hh)
      show (mapGet (mapErase d.userOperationsTbl h₀) h).isSome
      rw [mapGet_erase_ne _ _ _ hne]
      exact hsome h (List.mem_cons_of_mem h₀ hh)
    have hstep : ∀ b h',
        (b, h') ∈ (d.remove h₀).1.byEntityTbl →
          (b, h') ∈ d.byEntityTbl ∧ h' ≠ h₀ := by
      intro b h' hmem
      rw [hrm] at hmem
      rcases (mem_optDupDeleteOne _ _ _ _ _).mp hmem with ⟨hmem₁, hnotP⟩
      rcases (mem_optDupDeleteOne _ _ _ _ _).mp hmem₁ with ⟨hold, hnotF⟩
      refine ⟨hold, ?_⟩
      intro he
      subst he
      rcases (hd.bwdE b h' hold).1 with hf | hp
      · exact hnotF ⟨by rw [huo]; exact hf, rfl⟩
      · exact hnotP ⟨by rw [huo]; exact hp, rfl⟩
    have hseq : dbRemoveSeq d (h₀ :: rest) = dbRemoveSeq (d.remove h₀).1 rest := by
      show (match d.remove h₀ with
        | (d', none) => dbRemoveSeq d' rest
        | (d', some e) => (d', some e)) = dbRemoveSeq (d.remove h₀).1 rest
      rw [hrm]
    rcases ih (d.remove h₀).1 hd₁ (List.nodup_cons.mp hnd).2 hrest with
      ⟨hok, hinv, hsub⟩
    refine ⟨by rw [hseq]; exact hok, by rw [hseq]; exact hinv, ?_⟩
    intro b h' hmem
    rw [hseq] at hmem
    rcases hsub b h' hmem with ⟨hmem₁, hnr⟩
    rcases hstep b h' hmem₁ with ⟨hmemm, hne⟩
    exact ⟨hmemm, by
      intro hin
      rcases List.mem_cons.mp hin with he | ht
      · exact hne he
      · exact hnr ht⟩

theorem db_remove_by_entity_ok (d : DatabaseMempool) (a : Address)
    (hd : DbInv d) :
    (d.remove_by_entity a).2 = none ∧ DbInv (d.remove_by_entity a).1 ∧
      ∀ h', (a, h') ∉ (d.remove_by_entity a).1.byEntityTbl := by
  have hnd : (dupGet d.byEntityTbl a).Nodup := nodup_dupGet _ _ hd.ndE
  have hsome : ∀ h ∈ dupGet d.byEntityTbl a,
      (mapGet d.userOperationsTbl h).isSome := by
    intro h hh
    exact (hd.bwdE a h ((mem_dupGet _ _ _).mp hh)).2
  rcases dbRemoveSeq_ok (dupGet d.byEntityTbl a) d hd hnd hsome with
    ⟨hok, hinv, hsub⟩
  refine ⟨hok, hinv, ?_⟩
  intro h' hmem
  rcases hsub a h' hmem with ⟨hmemm, hns⟩
  exact hns ((mem_dupGet _ _ _).mpr hmemm)

theorem uoLe_eq_true_iff (a b : UserOperation) :
    uoLe a b = true ↔ sortedPair a b := by
  unfold uoLe sortedPair
  by_cases h : a.max_priority_fee_per_gas = b.max_priority_fee_per_gas
  · simp [h]
  · simp [h]

theorem uoLe_trans (a b c : UserOperation) (hab : uoLe a b)
    (hbc : uoLe b c) : uoLe a c = true := by
  rw [uoLe_eq_true_iff] at hab hbc ⊢
  unfold sortedPair at hab hbc ⊢
  omega

theorem uoLe_total (a b : UserOperation) : (uoLe a b || uoLe b a) = true := by
  rw [Bool.or_eq_true, uoLe_eq_true_iff, uoLe_eq_true_iff]
  unfold sortedPair
  omega

/- Helper lemmas for the reputation decay tick. -/

theorem key_nodup_unique {V : Type} (tbl : List (Address × V))
    (hnd : (tbl.map Prod.fst).Nodup) (a : Address) (e₁ e₂ : V)
    (h₁ : (a, e₁) ∈ tbl) (h₂ : (a, e₂) ∈ tbl) : e₁ = e₂ := by
  induction tbl with
  | nil => exact absurd h₁ (List.not_mem_nil _)
  | cons p t ih =>
    rw [List.map_cons] at hnd
    have hnd' := List.nodup_cons.mp hnd
    rcases List.mem_cons.mp h₁ with he₁ | ht₁
    · rcases List.mem_cons.mp h₂ with he₂ | ht₂
      · rw [← he₁] at he₂
        exact congrArg Prod.snd he₂.symm
      · exfalso
        apply hnd'.1
        rw [← he₁]
        show a ∈ t.map Prod.fst
        exact List.mem_map_of_mem Prod.fst ht₂
    · rcases List.mem_cons.mp h₂ with he₂ | ht₂
      · exfalso
        apply hnd'.1
        rw [← he₂]
        show a ∈ t.map Prod.fst
        exact List.mem_map_of_mem Prod.fst ht₁
      · exact ih hnd'.2 ht₁ ht₂

theorem decay64_eq_of_lt (x : Nat) (hx : x * 23 < u64size) :
    decay64 x = x * 23 / 24 := by
  unfold decay64
  rw [Nat.mod_eq_of_lt hx]

theorem entityGate_ok_iff (s : Address → Status) (tc : Nat)
    (nS nE : Address → Nat) (tag : EntityTag) (a : Address) :
    entityGate s tc nS nE tag a = .ok () ↔ entityOk s tc nS nE a := by
  unfold entityGate check_banned check_throttled entityOk
  by_cases h1 : s a = .banned
  · simp [h1, Except.bind]
  · by_cases h2 : s a = .throttled ∧ tc ≤ nS a + nE a
    · simp [h1, h2, Except.bind]
    · simp [h1, h2, Except.bind]

theorem entityGate_banned_err (s : Address → Status) (tc : Nat)
    (nS nE : Address → Nat) (tag : EntityTag) (a : Address) (e : EntityTag)
    (b : Address)
    (h : entityGate s tc nS nE tag a = .error (.entityBanned e b)) :
    e = tag ∧ b = a ∧ s a = .banned := by
  unfold entityGate check_banned check_throttled at h
  by_cases h1 : s a = .banned
  · rw [if_pos h1] at h
    simp only [Except.bind] at h
    rcases SanityCheckError.entityBanned.injEq _ _ _ _ ▸
      (Except.error.injEq _ _ ▸ h) with he
    exact ⟨he.1.symm, he.2.symm, h1⟩
  · rw [if_neg h1] at h
    simp only [Except.bind] at h
    by_cases h2 : s a = .throttled ∧ tc ≤ nS a + nE a
    · rw [if_pos h2] at h
      exact absurd (Except.error.injEq _ _ ▸ h) (by simp)
    · rw [if_neg h2] at h
      exact absurd h (by simp)

theorem entityGate_throttled_err (s : Address → Status) (tc : Nat)
    (nS nE : Address → Nat) (tag : EntityTag) (a : Address) (e : EntityTag)
    (b : Address)
    (h : entityGate s tc nS nE tag a = .error (.throttledLimit e b)) :
    e = tag ∧ b = a ∧ s a = .throttled ∧ tc ≤ nS a + nE a := by
  unfold entityGate check_banned check_throttled at h
  by_cases h1 : s a = .banned
  · rw [if_pos h1] at h
    simp only [Except.bind] at h
    exact absurd (Except.error.injEq _ _ ▸ h) (by simp)
  · rw [if_neg h1] at h
    simp only [Except.bind] at h
    by_cases h2 : s a = .throttled ∧ tc ≤ nS a + nE a
    · rw [if_pos h2] at h
      rcases SanityCheckError.throttledLimit.injEq _ _ _ _ ▸
        (Except.error.injEq _ _ ▸ h) with he
      exact ⟨he.1.symm, he.2.symm, h2⟩
    · rw [if_neg h2] at h
      exact absurd h (by simp)

theorem bindE_ok {E A B : Type} (a : A) (f : A → Except E B) :
    (Except.ok a).bind f = f a := rfl

theorem bindE_error {E A B : Type} (e : E) (f : A → Except E B) :
    (Except.error e : Except E A).bind f = Except.error e := rfl

theorem optGate_none (s : Address → Status) (tc : Nat)
    (nS nE : Address → Nat) (tag : EntityTag) :
    optGate s tc nS nE tag none = .ok () := rfl

theorem optGate_some (s : Address → Status) (tc : Nat)
    (nS nE : Address → Nat) (tag : EntityTag) (a : Address) :
    optGate s tc nS nE tag (some a) = entityGate s tc nS nE tag a := rfl

theorem entities_check_ok_iff (s : Address → Status) (tc : Nat)
    (nS nE : Address → Nat) (uo : UserOperation) :
    entities_check s tc nS nE uo = .ok () ↔
      entityOk s tc nS nE uo.sender ∧
      (∀ f, uo.factory = some f → entityOk s tc nS nE f) ∧
      (∀ p, uo.paymaster = some p → entityOk s tc nS nE p) := by
  simp only [entities_check, UserOperation.get_entities]
  cases hS : entityGate s tc nS nE .sender uo.sender with
  | error e =>
    rw [bindE_error]
    refine iff_of_false (by simp) ?_
    rintro ⟨hok, _, _⟩
    rw [← entityGate_ok_iff s tc nS nE .sender uo.sender, hS] at hok
    exact absurd hok (by simp)
  | ok u =>
    cases u
    rw [bindE_ok]
    have hokS : entityOk s tc nS nE uo.sender :=
      (entityGate_ok_iff _ _ _ _ _ _).mp hS
    cases hF : uo.factory with
    | none =>
      rw [optGate_none, bindE_ok]
      cases hP : uo.paymaster with
      | none =>
        rw [optGate_none]
        refine iff_of_true rfl ⟨hokS, ?_, ?_⟩ <;>
          exact fun x hx => Option.noConfusion hx
      | some p =>
        rw [optGate_some, entityGate_ok_iff]
        constructor
        · intro hp
          refine ⟨hokS, fun f hf => Option.noConfusion hf, ?_⟩
          intro q hq
          injection hq with hq
          subst hq
          exact hp
        · rintro ⟨_, _, hp⟩
          exact hp p rfl
    | some f =>
      rw [optGate_some]
      cases hgF : entityGate s tc nS nE .factory f with
      | error e =>
        rw [bindE_error]
        refine iff_of_false (by simp) ?_
        rintro ⟨_, hfp, _⟩
        have hokF := hfp f rfl
        rw [← entityGate_ok_iff s tc nS nE .factory f, hgF] at hokF
        exact absurd hokF (by simp)
      | ok v =>
        cases v
        rw [bindE_ok]
        have hokF : entityOk s tc nS nE f :=
          (entityGate_ok_iff _ _ _ _ _ _).mp hgF
        cases hP : uo.paymaster with
        | none =>
          rw [optGate_none]
          refine iff_of_true rfl ⟨hokS, ?_, ?_⟩
          · intro x hx
            injection hx with hx
            subst hx
            exact hokF
          · exact fun x hx => Option.noConfusion hx
        | some p =>
          rw [optGate_some, entityGate_ok_iff]
          constructor
          · intro hp
            refine ⟨hokS, ?_, ?_⟩
            · intro x hx
              injection hx with hx
              subst hx
              exact hokF
            · intro q hq
              injection hq with hq
              subst hq
              exact hp
          · rintro ⟨_, _, hp⟩
            exact hp p rfl

theorem entities_check_banned_err (s : Address → Status) (tc : Nat)
    (nS nE : Address → Nat) (uo : UserOperation) (e : EntityTag) (a : Address)
    (h : entities_check s tc nS nE uo = .error (.entityBanned e a)) :
    s a = .banned ∧ namedEntity uo a := by
  simp only [entities_check, UserOperation.get_entities] at h
  cases hS : entityGate s tc nS nE .sender uo.sender with
  | error eS =>
    rw [hS, bindE_error] at h
    injection h with heS
    have hS' : entityGate s tc nS nE .sender uo.sender
        = .error (.entityBanned e a) := by rw [hS, heS]
    rcases entityGate_banned_err s tc nS nE .sender uo.sender e a hS' with
      ⟨_, hb, hba⟩
    refine ⟨?_, Or.inl hb⟩
    rw [hb]
    exact hba
  | ok u =>
    cases u
    rw [hS, bindE_ok] at h
    cases hF : uo.factory with
    | none =>
      rw [hF, optGate_none, bindE_ok] at h
      cases hP : uo.paymaster with
      | none =>
        rw [hP, optGate_none] at h
        exact absurd h (by simp)
      | some p =>
        rw [hP, optGate_some] at h
        rcases entityGate_banned_err s tc nS nE .paymaster p e a h with
          ⟨_, hb, hba⟩
        refine ⟨?_, Or.inr (Or.inr ?_)⟩
        · rw [hb]; exact hba
        · rw [hb]; exact hP
    | some f =>
      rw [hF, optGate_some] at h
      cases hgF : entityGate s tc nS nE .factory f with
      | error eF =>
        rw [hgF, bindE_error] at h
        injection h with heF
        have hgF' : entityGate s tc nS nE .factory f
            = .error (.entityBanned e a) := by rw [hgF, heF]
        rcases entityGate_banned_err s tc nS nE .factory f e a hgF' with
          ⟨_, hb, hba⟩
        refine ⟨?_, Or.inr (Or.inl ?_)⟩
        · rw [hb]; exact hba
        · rw [hb]; exact hF
      | ok v =>
        cases v
        rw [hgF, bindE_ok] at h
        cases hP : uo.paymaster with
        | none =>
          rw [hP, optGate_none] at h
          exact absurd h (by simp)
        | some p =>
          rw [hP, optGate_some] at h
          rcases entityGate_banned_err s tc nS nE .paymaster p e a h with
            ⟨_, hb, hba⟩
          refine ⟨?_, Or.inr (Or.inr ?_)⟩
          · rw [hb]; exact hba
          · rw [hb]; exact hP

theorem entities_check_throttled_err (s : Address → Status) (tc : Nat)
    (nS nE : Address → Nat) (uo : UserOperation) (e : EntityTag) (a : Address)
    (h : entities_check s tc nS nE uo = .error (.throttledLimit e a)) :
    s a = .throttled ∧ tc ≤ nS a + nE a ∧ namedEntity uo a := by
  simp only [entities_check, UserOperation.get_entities] at h
  cases hS : entityGate s tc nS nE .sender uo.sender with
  | error eS =>
    rw [hS, bindE_error] at h
    injection h with heS
    have hS' : entityGate s tc nS nE .sender uo.sender
        = .error (.throttledLimit e a) := by rw [hS, heS]
    rcases entityGate_throttled_err s tc nS nE .sender uo.sender e a hS' with
      ⟨_, hb, hth, hcnt⟩
    refine ⟨?_, ?_, Or.inl hb⟩
    · rw [hb]; exact hth
    · rw [hb]; exact hcnt
  | ok u =>
    cases u
    rw [hS, bindE_ok] at h
    cases hF : uo.factory with
    | none =>
      rw [hF, optGate_none, bindE_ok] at h
      cases hP : uo.paymaster with
      | none =>
        rw [hP, optGate_none] at h
        exact absurd h (by simp)
      | some p =>
        rw [hP, optGate_some] at h
        rcases entityGate_throttled_err s tc nS nE .paymaster p e a h with
          ⟨_, hb, hth, hcnt⟩
        refine ⟨?_, ?_, Or.inr (Or.inr ?_)⟩
        · rw [hb]; exact hth
        · rw [hb]; exact hcnt
        · rw [hb]; exact hP
    | some f =>
      rw [hF, optGate_some] at h
      cases hgF : entityGate s tc nS nE .factory f with
      | error eF =>
        rw [hgF, bindE_error] at h
        injection h with heF
        have hgF' : entityGate s tc nS nE .factory f
            = .error (.throttledLimit e a) := by rw [hgF, heF]
        rcases entityGate_throttled_err s tc nS nE .factory f e a hgF' with
          ⟨_, hb, hth, hcnt⟩
        refine ⟨?_, ?_, Or.inr (Or.inl ?_)⟩
        · rw [hb]; exact hth
        · rw [hb]; exact hcnt
        · rw [hb]; exact hF
      | ok v =>
        cases v
        rw [hgF, bindE_ok] at h
        cases hP : uo.paymaster with
        | none =>
          rw [hP, optGate_none] at h
          exact absurd h (by simp)
        | some p =>
          rw [hP, optGate_some] at h
          rcases entityGate_throttled_err s tc nS nE .paymaster p e a h with
            ⟨_, hb, hth, hcnt⟩
          refine ⟨?_, ?_, Or.inr (Or.inr ?_)⟩
          · rw [hb]; exact hth
          · rw [hb]; exact hcnt
          · rw [hb]; exact hP

/- Helper for verify_sender: the unstaked path with a non-empty sender slot
reduces to the replacement comparison against the first pooled operation. -/

theorem verify_sender_unstaked (m : MemoryMempool)
    (oldUo newUo : UserOperation) (rest : List UserOperation)
    (hnum : ¬ m.get_number_by_sender newUo.sender = 0)
    (hall : m.get_all_by_sender newUo.sender = oldUo :: rest) :
    verify_sender m false newUo =
      (if newUo.max_priority_fee_per_gas < oldUo.max_priority_fee_per_gas
        then SenderOutcome.panics
        else if newUo.sender = oldUo.sender ∧ newUo.nonce = oldUo.nonce ∧
            oldUo.max_priority_fee_per_gas < newUo.max_priority_fee_per_gas
          then
            if newUo.max_fee_per_gas < oldUo.max_fee_per_gas
              then SenderOutcome.panics
              else if newUo.max_fee_per_gas - oldUo.max_fee_per_gas
                  = newUo.max_priority_fee_per_gas
                    - oldUo.max_priority_fee_per_gas
                then SenderOutcome.ok
                else SenderOutcome.err
          else SenderOutcome.err) := by
  unfold verify_sender
  rw [if_neg hnum, hall]
  simp only [Bool.false_eq_true, if_false]

/-- C2 (amended): for an unstaked sender whose slot in the pool is
non-empty with first pooled operation oldUo, verify_sender succeeds exactly
when the new operation repeats the sender and nonce, strictly raises the
priority fee, and raises the max fee by exactly the same amount; it aborts
on the underflowing U256 subtractions (lower priority fee, or accepted
fee-bump with lowered max fee); in the remaining cases it fails with
SenderVerification. -/
theorem c2_sender_replacement (m : MemoryMempool)
    (oldUo newUo : UserOperation) (rest : List UserOperation)
    (hnum : ¬ m.get_number_by_sender newUo.sender = 0)
    (hall : m.get_all_by_sender newUo.sender = oldUo :: rest) :
    (verify_sender m false newUo = .ok ↔
      newUo.sender = oldUo.sender ∧ newUo.nonce = oldUo.nonce ∧
      oldUo.max_priority_fee_per_gas < newUo.max_priority_fee_per_gas ∧
      oldUo.max_fee_per_gas ≤ newUo.max_fee_per_gas ∧
      (newUo.max_fee_per_gas : Int) - (oldUo.max_fee_per_gas : Int)
        = (newUo.max_priority_fee_per_gas : Int)
          - (oldUo.max_priority_fee_per_gas : Int)) ∧
    (verify_sender m false newUo = .panics ↔
      newUo.max_priority_fee_per_gas < oldUo.max_priority_fee_per_gas ∨
      (newUo.sender = oldUo.sender ∧ newUo.nonce = oldUo.nonce ∧
       oldUo.max_priority_fee_per_gas < newUo.max_priority_fee_per_gas ∧
       newUo.max_fee_per_gas < oldUo.max_fee_per_gas)) ∧
    (verify_sender m false newUo = .err ↔
      oldUo.max_priority_fee_per_gas ≤ newUo.max_priority_fee_per_gas ∧
      ((newUo.sender = oldUo.sender ∧ newUo.nonce = oldUo.nonce ∧
        oldUo.max_priority_fee_per_gas < newUo.max_priority_fee_per_gas) →
        (oldUo.max_fee_per_gas ≤ newUo.max_fee_per_gas ∧
         (newUo.max_fee_per_gas : Int) - (oldUo.max_fee_per_gas : Int)
           ≠ (newUo.max_priority_fee_per_gas : Int)
             - (oldUo.max_priority_fee_per_gas : Int)))) := by
  rw [verify_sender_unstaked m oldUo newUo rest hnum hall]
  by_cases h1 : newUo.max_priority_fee_per_gas
      < oldUo.max_priority_fee_per_gas
  · rw [if_pos h1]
    refine ⟨iff_of_false (by simp) ?_, iff_of_true rfl (Or.inl h1),
      iff_of_false (by simp) ?_⟩
    · rintro ⟨_, _, ht, _, _⟩
      omega
    · rintro ⟨hge, _⟩
      omega
  · rw [if_neg h1]
    by_cases h2 : newUo.sender = oldUo.sender ∧ newUo.nonce = oldUo.nonce ∧
        oldUo.max_priority_fee_per_gas < newUo.max_priority_fee_per_gas
    · rw [if_pos h2]
      obtain ⟨hs, hn, ht⟩ := h2
      by_cases h3 : newUo.max_fee_per_gas < oldUo.max_fee_per_gas
      · rw [if_pos h3]
        refine ⟨iff_of_false (by simp) ?_,
          iff_of_true rfl (Or.inr ⟨hs, hn, ht, h3⟩),
          iff_of_false (by simp) ?_⟩
        · rintro ⟨_, _, _, hle, _⟩
          omega
        · rintro ⟨_, himp⟩
          rcases himp ⟨hs, hn, ht⟩ with ⟨hle, _⟩
          omega
      · rw [if_neg h3]
        by_cases h4 : newUo.max_fee_per_gas - oldUo.max_fee_per_gas
            = newUo.max_priority_fee_per_gas - oldUo.max_priority_fee_per_gas
        · rw [if_pos h4]
          refine ⟨iff_of_true rfl ⟨hs, hn, ht, by omega, by omega⟩,
            iff_of_false (by simp) ?_, iff_of_false (by simp) ?_⟩
          · rintro (hlt | ⟨_, _, _, hlt⟩) <;> omega
          · rintro ⟨_, himp⟩
            rcases himp ⟨hs, hn, ht⟩ with ⟨_, hneq⟩
            exact hneq (by omega)
        · rw [if_neg h4]
          refine ⟨iff_of_false (by simp) ?_, iff_of_false (by simp) ?_,
            iff_of_true rfl ⟨by omega, fun _ => ⟨by omega, fun heq => h4 (by omega)⟩⟩⟩
          · rintro ⟨_, _, _, _, heq⟩
            exact h4 (by omega)
          · rintro (hlt | ⟨_, _, _, hlt⟩) <;> omega
    · rw [if_neg h2]
      refine ⟨iff_of_false (by simp) ?_, iff_of_false (by simp) ?_,
        iff_of_true rfl ⟨by omega, fun htr => absurd htr h2⟩⟩
      · rintro ⟨hs, hn, ht, _, _⟩
        exact h2 ⟨hs, hn, ht⟩
      · rintro (hlt | ⟨hs, hn, ht, _⟩)
        · omega
        · exact h2 ⟨hs, hn, ht⟩

/- The claim theorems. -/

/-- C1: after any sequence of add, remove, remove_by_entity and clear
operations on either backend (started from the fresh state), every stored
operation is indexed under its sender and its present factory and paymaster,
and every hash held by the sender index, the entity index or the code-hash
store refers to an operation present in the primary store. -/
theorem c1_index_consistency (ops : List MempoolOp) :
    memConsistent (MemoryMempool.empty.applyOps ops) ∧
    dbConsistent (DatabaseMempool.empty.applyOps ops) :=
  ⟨memConsistent_of_memInv _
      (memInv_applyOps ops MemoryMempool.empty memInv_empty),
    dbConsistent_of_dbInv _
      (dbReach_applyOps ops DatabaseMempool.empty ⟨dbInv_empty, rfl⟩).1⟩

/-- C4: on either backend, the output of get_sorted pairwise satisfies:
the earlier operation has the strictly higher priority fee, or the fees are
equal and the earlier operation has the smaller-or-equal nonce. -/
theorem c4_sort_law :
    (∀ m : MemoryMempool, m.get_sorted.Pairwise sortedPair) ∧
    (∀ d : DatabaseMempool, d.get_sorted.Pairwise sortedPair) := by
  constructor
  · intro m
    exact (List.sorted_mergeSort uoLe_trans uoLe_total
      (m.user_operations.map Prod.snd)).imp
      (fun hab => (uoLe_eq_true_iff _ _).mp hab)
  · intro d
    exact (List.sorted_mergeSort uoLe_trans uoLe_total
      (d.userOperationsTbl.map Prod.snd)).imp
      (fun hab => (uoLe_eq_true_iff _ _).mp hab)

/-- C10: on either backend, get_sorted returns a permutation of get_all:
sorting neither drops, duplicates, nor invents operations. -/
theorem c10_get_sorted_perm :
    (∀ m : MemoryMempool, m.get_sorted.Perm m.get_all) ∧
    (∀ d : DatabaseMempool, d.get_sorted.Perm d.get_all) :=
  ⟨fun m => List.mergeSort_perm (m.user_operations.map Prod.snd) uoLe,
    fun d => List.mergeSort_perm (d.userOperationsTbl.map Prod.snd) uoLe⟩

/-- C8: the sender-or-init-code check succeeds exactly when precisely one
of the two conditions holds (the sender has non-empty on-chain code, or
init_code is non-empty); when both or neither holds it fails with
SenderOrInitCode. -/
theorem c8_sender_or_init_code (code : Bytes) (uo : UserOperation) :
    (sender_or_init_code code uo = .ok () ↔
      Xor' (code ≠ []) (uo.init_code ≠ [])) ∧
    (sender_or_init_code code uo
        = .error (.senderOrInitCode uo.sender uo.init_code) ↔
      ¬ Xor' (code ≠ []) (uo.init_code ≠ [])) := by
  unfold sender_or_init_code
  cases code with
  | nil =>
    cases hic : uo.init_code with
    | nil => constructor <;> simp [Xor', hic]
    | cons b bs => constructor <;> simp [Xor', hic]
  | cons c cs =>
    cases hic : uo.init_code with
    | nil => constructor <;> simp [Xor', hic]
    | cons b bs => constructor <;> simp [Xor', hic]

/-- C9: verify_sender is not total.  With an unstaked sender holding a
pooled operation with priority fee 100, a new operation with priority fee 50
reaches the U256 subtraction of the old priority fee from the new one, which
underflows and panics instead of returning Ok or SenderVerification. -/
theorem c9_verify_sender_underflow :
    verify_sender cPool false cNewC = SenderOutcome.panics ∧
    cNewC.max_priority_fee_per_gas < cOld.max_priority_fee_per_gas := by
  constructor <;> decide

/-- C2 (counterexample): the claim as stated fails on the code.  With the
customary 10 percent bump (spec design note) the code admits a one-unit tip
bump, which the claim rejects; and even with a zero bump the claim and the
code disagree, since the claim admits an equal-fee resubmission that the
code rejects. -/
theorem c2_sender_replacement_counterexample :
    ¬ c2ClaimHolds 10 cOld cNewA cPool ∧ ¬ c2ClaimHolds 0 cOld cNewB cPool := by
  unfold c2ClaimHolds
  exact ⟨by decide, by decide⟩

/-- C2 (witness): the amended characterization admits the one-unit bump with
equal uplift on the concrete pool. -/
theorem c2_sender_replacement_witness :
    verify_sender cPool false cNewA = SenderOutcome.ok :=
  ((c2_sender_replacement cPool cOld cNewA [] (by decide) (by decide)).1).mpr
    (by decide)

/-- C6: on invariant-satisfying states of either backend, remove(hash)
returns NotFound exactly when the hash is absent from the primary store and
then leaves the state untouched; on a present hash it succeeds and deletes
the hash from the primary store, the sender index, the entity index and the
code-hash store. -/
theorem c6_remove (m : MemoryMempool) (d : DatabaseMempool)
    (h₀ : UserOperationHash) (hm : MemInv m) (hd : DbInv d) :
    ((m.remove h₀).2 = some MempoolError.notFound ↔
      mapGet m.user_operations h₀ = none) ∧
    (mapGet m.user_operations h₀ = none → (m.remove h₀).1 = m) ∧
    ((mapGet m.user_operations h₀).isSome →
      (m.remove h₀).2 = none ∧
      mapGet (m.remove h₀).1.user_operations h₀ = none ∧
      (∀ a, ¬ idxMem (m.remove h₀).1.user_operations_by_sender a h₀) ∧
      (∀ a, ¬ idxMem (m.remove h₀).1.user_operations_by_entity a h₀) ∧
      mapGet (m.remove h₀).1.code_hashes_by_user_operation h₀ = none) ∧
    ((d.remove h₀).2 = some MempoolError.notFound ↔
      mapGet d.userOperationsTbl h₀ = none) ∧
    (mapGet d.userOperationsTbl h₀ = none → (d.remove h₀).1 = d) ∧
    ((mapGet d.userOperationsTbl h₀).isSome →
      (d.remove h₀).2 = none ∧
      mapGet (d.remove h₀).1.userOperationsTbl h₀ = none ∧
      (∀ a, (a, h₀) ∉ (d.remove h₀).1.bySenderTbl) ∧
      (∀ a, (a, h₀) ∉ (d.remove h₀).1.byEntityTbl) ∧
      (∀ ch, (h₀, ch) ∉ (d.remove h₀).1.codeHashesTbl)) := by
  refine ⟨?_, ?_, ?_, ?_, ?_, ?_⟩
  · cases hget : mapGet m.user_operations h₀ with
    | none =>
      rw [remove_eq_of_get_none m h₀ hget]
      exact iff_of_true rfl rfl
    | some uo =>
      rw [remove_eq_of_get_some m h₀ uo hget]
      exact iff_of_false (by simp) (by simp)
  · intro hget
    rw [remove_eq_of_get_none m h₀ hget]
  · intro hsome
    rcases Option.isSome_iff_exists.mp hsome with ⟨uo, hget⟩
    have huo : uo = h₀.uo := hm.coher h₀ uo hget
    rw [remove_eq_of_get_some m h₀ uo hget]
    refine ⟨rfl, mapGet_erase_self _ _, ?_, ?_, mapGet_erase_self _ _⟩
    · intro a hmem
      rcases (idxMem_idxRemove _ _ _ _ _).mp hmem with ⟨hold, hnot⟩
      have ha := (hm.bwdS a h₀ hold).1
      exact hnot ⟨by rw [ha, huo], rfl⟩
    · intro a hmem
      rcases (idxMem_optIdxRemove _ _ _ _ _).mp hmem with ⟨hmem₁, hnotP⟩
      rcases (idxMem_optIdxRemove _ _ _ _ _).mp hmem₁ with ⟨hold, hnotF⟩
      rcases (hm.bwdE a h₀ hold).1 with hf | hp
      · exact hnotF ⟨by rw [huo]; exact hf, rfl⟩
      · exact hnotP ⟨by rw [huo]; exact hp, rfl⟩
  · cases hget : mapGet d.userOperationsTbl h₀ with
    | none =>
      rw [dbRemove_eq_of_get_none d h₀ hget]
      exact iff_of_true rfl rfl
    | some uo =>
      rw [dbRemove_eq_of_get_some d h₀ uo hget]
      exact iff_of_false (by simp) (by simp)
  · intro hget
    rw [dbRemove_eq_of_get_none d h₀ hget]
  · intro hsome
    rcases Option.isSome_iff_exists.mp hsome with ⟨uo, hget⟩
    have huo : uo = h₀.uo := hd.coher h₀ uo hget
    rw [dbRemove_eq_of_get_some d h₀ uo hget]
    refine ⟨rfl, mapGet_erase_self _ _, ?_, ?_, ?_⟩
    · intro a hmem
      rcases (mem_dupDeleteOne _ _ _ _).mp hmem with ⟨hold, hnot⟩
      have ha := (hd.bwdS a h₀ hold).1
      exact hnot (by rw [ha, huo])
    · intro a hmem
      rcases (mem_optDupDeleteOne _ _ _ _ _).mp hmem with ⟨hmem₁, hnotP⟩
      rcases (mem_optDupDeleteOne _ _ _ _ _).mp hmem₁ with ⟨hold, hnotF⟩
      rcases (hd.bwdE a h₀ hold).1 with hf | hp
      · exact hnotF ⟨by rw [huo]; exact hf, rfl⟩
      · exact hnotP ⟨by rw [huo]; exact hp, rfl⟩
    · intro ch hmem
      rcases (mem_dupDeleteAll _ _ _).mp hmem with ⟨_, hne⟩
      exact hne rfl

/-- C6 (witness): remove succeeds on the one-element pools of either
backend. -/
theorem c6_remove_witness :
    (cPool.remove (cOld.hash 1 5)).2 = none ∧
    (cDb.remove (cOld.hash 1 5)).2 = none := by
  have hm : MemInv cPool :=
    memInv_add MemoryMempool.empty cOld 1 5 memInv_empty
  have hd : DbInv cDb :=
    dbInv_add DatabaseMempool.empty cOld 1 5 dbInv_empty
  have hc := c6_remove cPool cDb (cOld.hash 1 5) hm hd
  exact ⟨(hc.2.2.1 (by decide)).1, (hc.2.2.2.2.2 (by decide)).1⟩

/-- C7 (counterexample): remove_by_entity does not suppress NotFound for
missing child operations: on either backend, a state whose entity index
lists a dangling hash makes remove_by_entity return NotFound. -/
theorem c7_remove_by_entity_counterexample :
    (cBadMem.remove_by_entity 7).2 = some MempoolError.notFound ∧
    (cBadDb.remove_by_entity 7).2 = some MempoolError.notFound := by
  exact ⟨by decide, by decide⟩

/-- C7 (amended): remove_by_entity propagates NotFound raised for a child
hash that is missing from the primary store; on index-consistent states —
where listed children always exist — it never fails, and on success no
operation naming the entity as factory or paymaster remains, the entity
index entry included. -/
theorem c7_remove_by_entity (m : MemoryMempool) (d : DatabaseMempool)
    (a : Address) (hm : MemInv m) (hd : DbInv d) :
    ((m.remove_by_entity a).2 = none ∧
     (∀ h uo, mapGet (m.remove_by_entity a).1.user_operations h = some uo →
        uo.factory ≠ some a ∧ uo.paymaster ≠ some a) ∧
     (∀ h, ¬ idxMem (m.remove_by_entity a).1.user_operations_by_entity a h)) ∧
    ((d.remove_by_entity a).2 = none ∧
     (∀ h uo, mapGet (d.remove_by_entity a).1.userOperationsTbl h = some uo →
        uo.factory ≠ some a ∧ uo.paymaster ≠ some a) ∧
     (∀ h, (a, h) ∉ (d.remove_by_entity a).1.byEntityTbl)) := by
  rcases remove_by_entity_ok m a hm with ⟨hok, hinv, hempty⟩
  rcases db_remove_by_entity_ok d a hd with ⟨hokD, hinvD, hemptyD⟩
  refine ⟨⟨hok, ?_, hempty⟩, ⟨hokD, ?_, hemptyD⟩⟩
  · intro h uo hget
    have huo : uo = h.uo := hinv.coher h uo hget
    have hsome : (mapGet (m.remove_by_entity a).1.user_operations h).isSome := by
      rw [hget]; rfl
    constructor
    · intro hf
      exact hempty h (hinv.fwdF h a hsome (by rw [← huo]; exact hf))
    · intro hp
      exact hempty h (hinv.fwdP h a hsome (by rw [← huo]; exact hp))
  · intro h uo hget
    have huo : uo = h.uo := hinvD.coher h uo hget
    have hsome : (mapGet (d.remove_by_entity a).1.userOperationsTbl h).isSome := by
      rw [hget]; rfl
    constructor
    · intro hf
      exact hemptyD h (hinvD.fwdF h a hsome (by rw [← huo]; exact hf))
    · intro hp
      exact hemptyD h (hinvD.fwdP h a hsome (by rw [← huo]; exact hp))

/-- C7 (witness): on consistent one-element pools, removing by the
paymaster entity succeeds on both backends. -/
theorem c7_remove_by_entity_witness :
    (cPoolPm.remove_by_entity 7).2 = none ∧
    (cDbPm.remove_by_entity 7).2 = none := by
  have hm : MemInv cPoolPm :=
    memInv_add MemoryMempool.empty cUoPm 1 5 memInv_empty
  have hd : DbInv cDbPm :=
    dbInv_add DatabaseMempool.empty cUoPm 1 5 dbInv_empty
  have hc := c7_remove_by_entity cPoolPm cDbPm 7 hm hd
  exact ⟨hc.1.1, hc.2.1⟩

/-- C5 (counterexample): with sender 1 throttled over the limit and
paymaster 3 banned, the check fails with ThrottledLimit for the sender,
although a named entity has status BANNED — so the claimed EntityBanned
failure does not happen. -/
theorem c5_entities_gate_counterexample :
    ¬ c5ClaimHolds c5Status 4 c5NumS c5NumE c5Uo := by
  intro hc
  rcases hc.1 ⟨3, Or.inr (Or.inr (by decide)), by decide⟩ with ⟨e, a, heq⟩
  have hcomp : entities_check c5Status 4 c5NumS c5NumE c5Uo
      = .error (.throttledLimit .sender 1) := by rfl
  rw [hcomp] at heq
  injection heq with h
  exact SanityCheckError.noConfusion h

/-- C5 (amended): the check examines sender, factory and paymaster in that
order, each through check_banned then check_throttled; it succeeds exactly
when no named entity is banned and none is throttled over the limit, and
when it fails the error names the first offending entity: EntityBanned only
for a banned named entity and ThrottledLimit only for a throttled named
entity over the limit. -/
theorem c5_entities_gate (s : Address → Status) (tc : Nat)
    (nS nE : Address → Nat) (uo : UserOperation) :
    (entities_check s tc nS nE uo = .ok () ↔
      entityOk s tc nS nE uo.sender ∧
      (∀ f, uo.factory = some f → entityOk s tc nS nE f) ∧
      (∀ p, uo.paymaster = some p → entityOk s tc nS nE p)) ∧
    (∀ e a, entities_check s tc nS nE uo = .error (.entityBanned e a) →
      s a = .banned ∧ namedEntity uo a) ∧
    (∀ e a, entities_check s tc nS nE uo = .error (.throttledLimit e a) →
      s a = .throttled ∧ tc ≤ nS a + nE a ∧ namedEntity uo a) :=
  ⟨entities_check_ok_iff s tc nS nE uo,
    fun e a h => entities_check_banned_err s tc nS nE uo e a h,
    fun e a h => entities_check_throttled_err s tc nS nE uo e a h⟩

/-- C5 (witness): the banned-error direction applied to a concrete banned
sender. -/
theorem c5_entities_gate_witness :
    c5StatusW 9 = Status.banned ∧ namedEntity c5UoW 9 :=
  (c5_entities_gate c5StatusW 4 c5NumE c5NumE c5UoW).2.1 .sender 9 (by rfl)

/-- C3 (counterexample): the u64 multiplication in the decay wraps: at
uo_seen = 2^63 the tick stores 2^63 / 24, not (2^63 * 23) / 24 as the claim
prescribes. -/
theorem c3_reputation_tick_counterexample :
    reputationTick [(0, ⟨0, 2 ^ 63, 0⟩)] = [(0, ⟨0, 2 ^ 63 / 24, 0⟩)] ∧
      2 ^ 63 / 24 ≠ 2 ^ 63 * 23 / 24 := by
  constructor
  · decide
  · decide

/-- C3 (amended): one tick maps each entry's counters x to
(x * 23 mod 2^64) / 24 — which equals (x * 23) / 24 whenever x * 23 fits in
a u64 — and deletes exactly the entries whose two decayed counters are both
zero. -/
theorem c3_reputation_tick (tbl : List (Address × ReputationEntry))
    (hkeys : (tbl.map Prod.fst).Nodup)
    (hbound : ∀ p ∈ tbl,
      p.2.uo_seen * 23 < u64size ∧ p.2.uo_included * 23 < u64size) :
    (∀ a e, (a, e) ∈ tbl →
      ((e.uo_seen * 23 / 24 = 0 ∧ e.uo_included * 23 / 24 = 0) →
        ∀ eNew, (a, eNew) ∉ reputationTick tbl) ∧
      (¬(e.uo_seen * 23 / 24 = 0 ∧ e.uo_included * 23 / 24 = 0) →
        (a, ⟨e.address, e.uo_seen * 23 / 24, e.uo_included * 23 / 24⟩)
          ∈ reputationTick tbl)) ∧
    (∀ a eNew, (a, eNew) ∈ reputationTick tbl →
      ∃ e, (a, e) ∈ tbl ∧ eNew.address = e.address ∧
        eNew.uo_seen = e.uo_seen * 23 / 24 ∧
        eNew.uo_included = e.uo_included * 23 / 24 ∧
        ¬(eNew.uo_seen = 0 ∧ eNew.uo_included = 0)) := by
  constructor
  · intro a e hmem
    have hb := hbound (a, e) hmem
    have hds : decay64 e.uo_seen = e.uo_seen * 23 / 24 :=
      decay64_eq_of_lt _ hb.1
    have hdi : decay64 e.uo_included = e.uo_included * 23 / 24 :=
      decay64_eq_of_lt _ hb.2
    constructor
    · rintro ⟨hz1, hz2⟩ eNew hmemNew
      simp only [reputationTick, List.mem_filterMap] at hmemNew
      rcases hmemNew with ⟨p, hp, hfp⟩
      by_cases hcond : 0 < decay64 p.2.uo_seen ∨ 0 < decay64 p.2.uo_included
      · rw [if_pos hcond] at hfp
        injection hfp with hfp
        have hp1 : p.1 = a := congrArg Prod.fst hfp
        have hpp : (a, p.2) ∈ tbl := by rw [← hp1]; exact hp
        have he : p.2 = e := key_nodup_unique tbl hkeys a p.2 e hpp hmem
        rw [he, hds, hdi] at hcond
        omega
      · rw [if_neg hcond] at hfp
        exact Option.noConfusion hfp
    · intro hnz
      have hcond : 0 < decay64 e.uo_seen ∨ 0 < decay64 e.uo_included := by
        rw [hds, hdi]
        omega
      refine List.mem_filterMap.mpr ⟨(a, e), hmem, ?_⟩
      show (if 0 < decay64 e.uo_seen ∨ 0 < decay64 e.uo_included then
          some ((a, (⟨e.address, decay64 e.uo_seen, decay64 e.uo_included⟩
            : ReputationEntry)) : Address × ReputationEntry)
        else none)
        = some (a, (⟨e.address, e.uo_seen * 23 / 24, e.uo_included * 23 / 24⟩
          : ReputationEntry))
      rw [if_pos hcond, hds, hdi]
  · intro a eNew hmemNew
    simp only [reputationTick, List.mem_filterMap] at hmemNew
    rcases hmemNew with ⟨p, hp, hfp⟩
    by_cases hcond : 0 < decay64 p.2.uo_seen ∨ 0 < decay64 p.2.uo_included
    · rw [if_pos hcond] at hfp
      injection hfp with hfp
      have hp1 : p.1 = a := congrArg Prod.fst hfp
      have he2 : eNew
          = ⟨p.2.address, decay64 p.2.uo_seen, decay64 p.2.uo_included⟩ :=
        (congrArg Prod.snd hfp).symm
      have hpp : (a, p.2) ∈ tbl := by rw [← hp1]; exact hp
      have hb := hbound (a, p.2) hpp
      refine ⟨p.2, hpp, ?_, ?_, ?_, ?_⟩
      · rw [he2]
      · rw [he2]
        exact decay64_eq_of_lt _ hb.1
      · rw [he2]
        exact decay64_eq_of_lt _ hb.2
      · rw [he2]
        intro hz
        simp only at hz
        omega
    · rw [if_neg hcond] at hfp
      exact Option.noConfusion hfp

/-- C3 (witness): the amended characterization at the table holding the
entries (24, 24) and (1, 0): the first decays to (23, 23). -/
theorem c3_reputation_tick_witness :
    ((5 : Address), (⟨5, 23, 23⟩ : ReputationEntry))
      ∈ reputationTick [(5, ⟨5, 24, 24⟩), (6, ⟨6, 1, 0⟩)] :=
  ((c3_reputation_tick [(5, ⟨5, 24, 24⟩), (6, ⟨6, 1, 0⟩)] (by decide)
    (by decide)).1 5 ⟨5, 24, 24⟩ (by decide)).2 (by decide)

end Silius

